import Mathlib

/-!
Verification development for the montecarlo-ip-searcher repository.

The Go sources are shallowly embedded:
* machine integers (`uint32`, 128-bit IPv6 values, bytes) become `Nat` with
  explicit `% 2 ^ w` where overflow can matter;
* Go `int` values that the code compares against `0` become `Int`;
* Go strings become `List Char` (Go's `strings` functions are re-implemented
  structurally so that everything evaluates);
* randomness is passed in explicitly: a call that draws from an rng takes the
  drawn values as arguments, and `crypto/rand.Read` becomes an
  `Option (List Nat)` argument (`none` models a failed read, which in the
  source falls back to the caller's rng).
-/

set_option maxRecDepth 8192

namespace Mcis

open scoped List

/-! ### Address / prefix data model (Go `net/netip` as used by `internal/cidr`)

An address is a `Nat` below `2 ^ 32` (v4) or `2 ^ 128` (v6); a prefix is an
(address, bit-length) pair tagged with its family.  `netip.Prefix.Masked`
zeroes the host bits; `netip.PrefixFrom` keeps the given bit length.
-/

inductive Family where
  | v4
  | v6
deriving DecidableEq, Repr

def Family.maxBits : Family → Nat
  | .v4 => 32
  | .v6 => 128

structure Pfx where
  family : Family
  addr : Nat
  bits : Nat
deriving DecidableEq, Repr

/-- The number of host bits, `family_max_bits - bits`. -/
def Pfx.hostLen (p : Pfx) : Nat := p.family.maxBits - p.bits

/-- `netip.Prefix.Masked`: zero the host bits of the address. -/
def Pfx.masked (p : Pfx) : Pfx :=
  ⟨p.family, p.addr >>> p.hostLen <<< p.hostLen, p.bits⟩

/-- Well-formedness netip guarantees for every constructed prefix: the address
fits its family and the bit length is in range. -/
def Pfx.wf (p : Pfx) : Prop :=
  p.addr < 2 ^ p.family.maxBits ∧ p.bits ≤ p.family.maxBits

/-- `netip.Prefix.Contains` on a masked prefix: the top `p.bits` bits of `a`
equal the prefix's network bits. -/
def containsAddr (p : Pfx) (a : Nat) : Prop :=
  a >>> p.hostLen = p.addr >>> p.hostLen

instance (p : Pfx) (a : Nat) : Decidable (containsAddr p a) := by
  unfold containsAddr; infer_instance

/-! ### `SplitPrefix` (src/internal/cidr/cidr.go lines 64-89, 166-205) -/

/-- `setBitFromLSB` (cidr.go line 197): set the bit at `posFromLSB`
(0 = least significant) in a 128-bit value, ignoring out-of-range positions.
The source's `posFromLSB < 0` guard is kept by taking an `Int` position. -/
def setBitFromLSB (dst : Nat) (posFromLSB : Int) : Nat :=
  if posFromLSB < 0 ∨ 128 ≤ posFromLSB then dst
  else dst ||| (1 <<< posFromLSB.toNat)

/-- `orShiftedIndex` (cidr.go line 187): set up to `bits` bits of `index` into
`dst` at bit positions `[shiftFromLSB, shiftFromLSB + bits)`. -/
def orShiftedIndex (dst : Nat) (index : Nat) (shiftFromLSB : Int) (bits : Nat) : Nat :=
  (List.range bits).foldl
    (fun d b => if (index >>> b) &&& 1 = 1 then setBitFromLSB d (shiftFromLSB + b) else d)
    dst

/-- `childPrefixAddr` (cidr.go line 168): the `index`-th child address when
splitting.  The v4 branch is Go `uint32` arithmetic (`v += uint32(index) <<
shift`), hence the `% 2 ^ 32`; the v6 branch ORs the index bits in. -/
def childPrefixAddr (fam : Family) (base : Nat) (parentBits : Nat) (step : Nat)
    (index : Nat) : Nat :=
  let newBits := parentBits + step
  match fam with
  | .v4 => (base + ((index % 2 ^ 32) <<< (32 - newBits)) % 2 ^ 32) % 2 ^ 32
  | .v6 => orShiftedIndex base index (128 - (newBits : Int)) step

/-- Outcome of `SplitPrefix`: besides the explicit error return, the call can
panic at run time (`make` with a negative capacity). -/
inductive SplitOutcome where
  | panic
  | error (e : List Char)
  | ok (out : List Pfx)
deriving DecidableEq, Repr

/-- Two's-complement wrap into a 64-bit signed machine `int` (Go `int` on the
64-bit platforms the tool targets). -/
def wrap64 (n : Int) : Int := (n + 2 ^ 63) % 2 ^ 64 - 2 ^ 63

/-- `SplitPrefix` (cidr.go line 66): split a prefix into `1 << step`
sub-prefixes by increasing the prefix length by `step`.  Both `newBits :=
p.Bits() + step` and `parts := 1 << step` are machine-`int` computations, so
they wrap: `1 << 63` is negative (`make([]netip.Prefix, 0, parts)` then
panics on the negative capacity) and `1 << step` is `0` for `step ≥ 64`, in
which case the loop body never runs and the empty list is returned with a nil
error.  (Allocation-size limits of `make` for huge positive capacities are
resource exhaustion and are not modelled.) -/
def SplitPrefix (p : Pfx) (step : Int) : SplitOutcome :=
  let q := p.masked
  if step ≤ 0 then .error ("invalid step".toList)
  else
    let newBits : Int := wrap64 ((q.bits : Int) + step)
    let maxBits : Int := if q.family = .v4 then 32 else 128
    if maxBits < newBits then .error ("cannot split".toList)
    else
      let parts : Int := wrap64 ((2 : Int) ^ step.toNat)
      if parts < 0 then .panic
      else
        .ok ((List.range parts.toNat).map fun i =>
          (Pfx.mk q.family (childPrefixAddr q.family q.addr q.bits step.toNat i)
            newBits.toNat).masked)

/-! ### Arithmetic helper lemmas -/

/-- A number with its low `k` bits zero ORed with a number below `2 ^ k` is
their sum. -/
theorem lor_eq_add_of_lt {k q b : Nat} (hb : b < 2 ^ k) :
    (2 ^ k * q) ||| b = 2 ^ k * q + b :=
  (Nat.mul_add_lt_is_or hb q).symm

theorem shiftLeft_lor_distrib (x y k : Nat) :
    (x ||| y) <<< k = (x <<< k) ||| (y <<< k) := by
  apply Nat.eq_of_testBit_eq
  intro i
  simp only [Nat.testBit_shiftLeft, Nat.testBit_lor]
  cases Nat.decLe k i with
  | isTrue h => simp [h]
  | isFalse h => simp [h]

/-- A masked value is a multiple of `2 ^ hostLen`. -/
theorem masked_addr_eq (p : Pfx) (hm : p.masked = p) :
    p.addr = 2 ^ p.hostLen * (p.addr >>> p.hostLen) := by
  conv_lhs => rw [← hm]
  show p.addr >>> p.hostLen <<< p.hostLen = _
  rw [Nat.shiftLeft_eq, Nat.mul_comm]

theorem lt_div_succ_mul (a b : Nat) (hb : 0 < b) : a < (a / b + 1) * b := by
  have h1 := Nat.div_add_mod a b
  have h2 := Nat.mod_lt a hb
  calc a = b * (a / b) + a % b := h1.symm
    _ < b * (a / b) + b := by omega
    _ = (a / b + 1) * b := by ring

/-- Characterisation of a division equality as an interval membership. -/
theorem div_eq_div_iff_mem_range {b : Nat} (a q : Nat) (hb : 0 < b) :
    a / b = q ↔ b * q ≤ a ∧ a < b * q + b := by
  constructor
  · intro hdiv
    have h1 : a / b * b ≤ a := Nat.div_mul_le_self a _
    have h2 : a < (a / b + 1) * b := lt_div_succ_mul a b hb
    rw [hdiv] at h1 h2
    constructor
    · calc b * q = q * b := Nat.mul_comm _ _
        _ ≤ a := h1
    · calc a < (q + 1) * b := h2
        _ = b * q + b := by ring
  · rintro ⟨h1, h2⟩
    apply Nat.div_eq_of_lt_le
    · calc q * b = b * q := Nat.mul_comm _ _
        _ ≤ a := h1
    · calc a < b * q + b := h2
        _ = (q + 1) * b := by ring

theorem contains_iff_range (c : Pfx) (hm : c.masked = c) (a : Nat) :
    containsAddr c a ↔ c.addr ≤ a ∧ a < c.addr + 2 ^ c.hostLen := by
  have hpos : 0 < 2 ^ c.hostLen := Nat.pos_pow_of_pos _ (by omega)
  have hcq : c.addr = 2 ^ c.hostLen * (c.addr >>> c.hostLen) := masked_addr_eq c hm
  rw [containsAddr, Nat.shiftRight_eq_div_pow,
    div_eq_div_iff_mem_range a (c.addr >>> c.hostLen) hpos, ← hcq]

/-- Unfolding `orShiftedIndex` to a single OR of the truncated, shifted
index. -/
theorem orShiftedIndex_eq (dst i : Nat) (sh : Nat) :
    ∀ n : Nat, sh + n ≤ 128 →
      orShiftedIndex dst i (sh : Int) n = dst ||| ((i % 2 ^ n) <<< sh)
  | 0, _ => by
    simp [orShiftedIndex, Nat.mod_one, Nat.zero_shiftLeft]
  | n + 1, h => by
    have ih := orShiftedIndex_eq dst i sh n (by omega)
    unfold orShiftedIndex at ih ⊢
    rw [List.range_succ, List.foldl_append, ih]
    simp only [List.foldl_cons, List.foldl_nil]
    have hbit : i % 2 ^ (n + 1) = i % 2 ^ n + 2 ^ n * (i / 2 ^ n % 2) := by
      rw [pow_succ]; exact Nat.mod_mul
    have hlt : (i % 2 ^ n) <<< sh < 2 ^ (n + sh) := by
      rw [Nat.shiftLeft_eq, pow_add]
      exact Nat.mul_lt_mul_of_lt_of_le (Nat.mod_lt _ (Nat.pos_pow_of_pos _ (by omega)))
        (Nat.le_refl _) (Nat.pos_pow_of_pos _ (by omega))
    have hsplit : (i % 2 ^ (n + 1)) <<< sh =
        (2 ^ (n + sh) * (i / 2 ^ n % 2)) ||| ((i % 2 ^ n) <<< sh) := by
      rw [lor_eq_add_of_lt hlt, hbit, Nat.shiftLeft_eq, Nat.shiftLeft_eq]
      ring
    have hshift : (i >>> n) &&& 1 = i / 2 ^ n % 2 := by
      rw [Nat.shiftRight_eq_div_pow, Nat.and_one_is_mod]
    by_cases hb : (i >>> n) &&& 1 = 1
    · rw [if_pos hb]
      have hbv : i / 2 ^ n % 2 = 1 := by rw [← hshift]; exact hb
      rw [setBitFromLSB, if_neg (by omega)]
      rw [hsplit, hbv]
      have : ((sh : Int) + (n : Int)).toNat = sh + n := by omega
      rw [this, Nat.mul_one]
      have h2 : (1 : Nat) <<< (sh + n) = 2 ^ (n + sh) := by
        rw [Nat.shiftLeft_eq, Nat.one_mul, Nat.add_comm]
      rw [h2, Nat.lor_assoc, Nat.lor_comm (2 ^ (n + sh))]
    · rw [if_neg hb]
      have hbv : i / 2 ^ n % 2 = 0 := by
        rw [← hshift]
        have := Nat.and_one_is_mod (i >>> n)
        have hlt2 : (i >>> n) &&& 1 < 2 := by rw [this]; exact Nat.mod_lt _ (by omega)
        omega
      rw [hsplit, hbv, Nat.mul_zero, Nat.zero_or]

/-- With the parent network a multiple of `2 ^ (sh + st)` and the index below
`2 ^ st`, the shifted index ORs in disjointly, i.e. the OR is a sum. -/
theorem lor_shifted_eq_add {base q i sh st : Nat}
    (hbase : base = 2 ^ (sh + st) * q) (hi : i < 2 ^ st) :
    base ||| (i <<< sh) = base + i * 2 ^ sh := by
  have hshift_lt : i <<< sh < 2 ^ (sh + st) := by
    rw [Nat.shiftLeft_eq, pow_add, Nat.mul_comm (2 ^ sh)]
    exact Nat.mul_lt_mul_of_lt_of_le hi (Nat.le_refl _) (Nat.pos_pow_of_pos _ (by omega))
  rw [hbase, lor_eq_add_of_lt hshift_lt, Nat.shiftLeft_eq]

/-- The v4 branch of `childPrefixAddr`: no `uint32` wrap occurs under the split
guard, and the result is the parent network plus the placed index. -/
theorem childPrefixAddr_v4 (base bits st i q : Nat)
    (hbase : base = 2 ^ (32 - bits) * q) (hlt : base < 2 ^ 32)
    (hst : bits + st ≤ 32) (hi : i < 2 ^ st) :
    childPrefixAddr .v4 base bits st i = base + i * 2 ^ (32 - (bits + st)) := by
  have hhl : 32 - bits = (32 - (bits + st)) + st := by omega
  have hbase' : base = 2 ^ ((32 - (bits + st)) + st) * q := by rw [← hhl]; exact hbase
  have hi32 : i % 2 ^ 32 = i :=
    Nat.mod_eq_of_lt (lt_of_lt_of_le hi (Nat.pow_le_pow_right (by omega) (by omega)))
  have hshift_lt : i <<< (32 - (bits + st)) < 2 ^ ((32 - (bits + st)) + st) := by
    rw [Nat.shiftLeft_eq, pow_add, Nat.mul_comm (2 ^ (32 - (bits + st)))]
    exact Nat.mul_lt_mul_of_lt_of_le hi (Nat.le_refl _) (Nat.pos_pow_of_pos _ (by omega))
  have hshift_lt32 : i <<< (32 - (bits + st)) < 2 ^ 32 :=
    lt_of_lt_of_le hshift_lt (Nat.pow_le_pow_right (by omega) (by omega))
  have hq_lt : q < 2 ^ bits := by
    by_contra hq
    push_neg at hq
    have : 2 ^ 32 ≤ base := by
      calc (2 : Nat) ^ 32 = 2 ^ ((32 - (bits + st)) + st) * 2 ^ bits := by
            rw [← pow_add]; congr 1; omega
        _ ≤ 2 ^ ((32 - (bits + st)) + st) * q :=
            Nat.mul_le_mul_left _ hq
        _ = base := hbase'.symm
    omega
  have hsum : base + i * 2 ^ (32 - (bits + st)) < 2 ^ 32 := by
    calc base + i * 2 ^ (32 - (bits + st))
        < 2 ^ ((32 - (bits + st)) + st) * q + 2 ^ ((32 - (bits + st)) + st) := by
          have := hshift_lt
          rw [Nat.shiftLeft_eq] at this
          omega
      _ = 2 ^ ((32 - (bits + st)) + st) * (q + 1) := by ring
      _ ≤ 2 ^ ((32 - (bits + st)) + st) * 2 ^ bits := Nat.mul_le_mul_left _ (by omega)
      _ = 2 ^ (((32 - (bits + st)) + st) + bits) := by rw [← pow_add]
      _ ≤ 2 ^ 32 := Nat.pow_le_pow_right (by omega) (by omega)
  show (base + (i % 2 ^ 32) <<< (32 - (bits + st)) % 2 ^ 32) % 2 ^ 32 = _
  rw [hi32, Nat.mod_eq_of_lt hshift_lt32, Nat.shiftLeft_eq, Nat.mod_eq_of_lt hsum]

/-- The v6 branch of `childPrefixAddr` under the split guard. -/
theorem childPrefixAddr_v6 (base bits st i q : Nat)
    (hbase : base = 2 ^ (128 - bits) * q)
    (hst : bits + st ≤ 128) (hi : i < 2 ^ st) :
    childPrefixAddr .v6 base bits st i = base + i * 2 ^ (128 - (bits + st)) := by
  have hhl : 128 - bits = (128 - (bits + st)) + st := by omega
  have hbase' : base = 2 ^ ((128 - (bits + st)) + st) * q := by rw [← hhl]; exact hbase
  have hsh_int : (128 : Int) - ((bits + st : Nat) : Int) = ((128 - (bits + st) : Nat) : Int) := by
    omega
  show orShiftedIndex base i (128 - ((bits + st : Nat) : Int)) st = _
  rw [hsh_int, orShiftedIndex_eq base i (128 - (bits + st)) st (by omega),
    Nat.mod_eq_of_lt hi, lor_shifted_eq_add hbase' hi]

/-- The child address, for a masked in-range parent and an in-range index, is
the parent's network ORed with the shifted index (equivalently, plus the
shifted index). -/
theorem childPrefixAddr_eq (p : Pfx) (st i : Nat)
    (hwf : p.wf) (hm : p.masked = p)
    (hst : p.bits + st ≤ p.family.maxBits) (hi : i < 2 ^ st) :
    childPrefixAddr p.family p.addr p.bits st i
      = p.addr + i * 2 ^ (p.family.maxBits - (p.bits + st)) ∧
    childPrefixAddr p.family p.addr p.bits st i
      = p.addr ||| (i <<< (p.family.maxBits - (p.bits + st))) := by
  obtain ⟨hwa, hwb⟩ := hwf
  have haddr := masked_addr_eq p hm
  obtain ⟨fam, addr, bits⟩ := p
  cases fam with
  | v4 =>
    have haddr' : addr = 2 ^ (32 - bits) * (addr >>> (32 - bits)) := haddr
    have hwa' : addr < 2 ^ 32 := hwa
    have hst' : bits + st ≤ 32 := hst
    have h1 := childPrefixAddr_v4 addr bits st i _ haddr' hwa' hst' hi
    have hhl : 32 - bits = (32 - (bits + st)) + st := by omega
    have hbase' : addr = 2 ^ ((32 - (bits + st)) + st) * (addr >>> (32 - bits)) := by
      rw [← hhl]; exact haddr'
    refine ⟨h1, ?_⟩
    show childPrefixAddr .v4 addr bits st i = addr ||| (i <<< (32 - (bits + st)))
    rw [h1, lor_shifted_eq_add hbase' hi]
  | v6 =>
    have haddr' : addr = 2 ^ (128 - bits) * (addr >>> (128 - bits)) := haddr
    have hst' : bits + st ≤ 128 := hst
    have h1 := childPrefixAddr_v6 addr bits st i _ haddr' hst' hi
    have hhl : 128 - bits = (128 - (bits + st)) + st := by omega
    have hbase' : addr = 2 ^ ((128 - (bits + st)) + st) * (addr >>> (128 - bits)) := by
      rw [← hhl]; exact haddr'
    refine ⟨h1, ?_⟩
    show childPrefixAddr .v6 addr bits st i = addr ||| (i <<< (128 - (bits + st)))
    rw [h1, lor_shifted_eq_add hbase' hi]

/-- A prefix whose address is a multiple of `2 ^ hostLen` is already masked. -/
theorem masked_of_multiple (fam : Family) (addr bits q : Nat)
    (h : addr = 2 ^ (Family.maxBits fam - bits) * q) :
    (Pfx.mk fam addr bits).masked = ⟨fam, addr, bits⟩ := by
  have hpos : 0 < 2 ^ (Family.maxBits fam - bits) := Nat.pos_pow_of_pos _ (by omega)
  show Pfx.mk fam (addr >>> (Family.maxBits fam - bits) <<< (Family.maxBits fam - bits))
      bits = _
  rw [h, Nat.shiftRight_eq_div_pow, Nat.mul_div_cancel_left q hpos, Nat.shiftLeft_eq,
    Nat.mul_comm]

/-- `wrap64` is the identity on values representable in 64-bit two's
complement. -/
theorem wrap64_eq_self (n : Int) (h1 : -(2 ^ 63) ≤ n) (h2 : n < 2 ^ 63) :
    wrap64 n = n := by
  have e1 : (2 : Int) ^ 63 = 9223372036854775808 := by norm_num
  have e2 : (2 : Int) ^ 64 = 18446744073709551616 := by norm_num
  rw [wrap64, e1, e2]
  rw [e1] at h1 h2
  omega

/-- Go `1 << step` on a 64-bit `int` is exact for shifts up to 62. -/
theorem wrap64_two_pow (k : Nat) (hk : k ≤ 62) :
    wrap64 ((2 : Int) ^ k) = 2 ^ k := by
  have hle : (2 : Int) ^ k ≤ 2 ^ 62 := pow_le_pow_right₀ (by norm_num) hk
  have hlt : (2 : Int) ^ 62 < 2 ^ 63 := by norm_num
  have hpos : (0 : Int) ≤ 2 ^ k := pow_nonneg (by norm_num) _
  have h63 : (0 : Int) < 2 ^ 63 := by norm_num
  exact wrap64_eq_self _ (by omega) (by omega)

/-- Go `1 << 63` on a 64-bit `int` overflows to the minimum (negative) value. -/
theorem wrap64_two_pow_63 : wrap64 ((2 : Int) ^ 63) = -(2 ^ 63) := by decide

/-- Go `1 << step` on a 64-bit `int` is `0` for every shift count `≥ 64`. -/
theorem wrap64_two_pow_ge (k : Nat) (hk : 64 ≤ k) :
    wrap64 ((2 : Int) ^ k) = 0 := by
  have h : (2 : Int) ^ k = 2 ^ 63 + (2 ^ 64 * 2 ^ (k - 64) - 2 ^ 63) + 0 := by
    rw [← pow_add]
    have : 64 + (k - 64) = k := by omega
    rw [this]; ring
  rw [wrap64, h]
  have h2 : (2 : Int) ^ 63 + (2 ^ 64 * 2 ^ (k - 64) - 2 ^ 63) + 0 + 2 ^ 63
      = 2 ^ 63 + 2 ^ 64 * 2 ^ (k - 64) := by ring
  rw [h2, Int.add_mul_emod_self_left]
  decide

/-- `SplitPrefix` in the success case (`1 ≤ s ≤ 62`, so `1 << s` is exact)
evaluates to the mapped children. -/
theorem SplitPrefix_eq_ok (p : Pfx) (s : Int) (hm : p.masked = p)
    (h1 : 0 < s) (h2 : (p.bits : Int) + s ≤ (p.family.maxBits : Int)) (h3 : s ≤ 62) :
    SplitPrefix p s = .ok ((List.range (2 ^ s.toNat)).map fun i =>
      (Pfx.mk p.family (childPrefixAddr p.family p.addr p.bits s.toNat i)
        ((p.bits : Int) + s).toNat).masked) := by
  simp only [SplitPrefix, hm]
  have hmax : (if p.family = Family.v4 then (32 : Int) else 128) = (p.family.maxBits : Int) := by
    cases p.family <;> simp [Family.maxBits]
  have hmb : (p.family.maxBits : Int) ≤ 128 := by
    cases p.family <;> simp [Family.maxBits]
  have h63 : (128 : Int) < 2 ^ 63 := by norm_num
  have hb0 : (0 : Int) ≤ (p.bits : Int) := Int.natCast_nonneg _
  have hw : wrap64 ((p.bits : Int) + s) = (p.bits : Int) + s :=
    wrap64_eq_self _ (by omega) (by omega)
  rw [hmax, if_neg (by omega), hw, if_neg (by omega)]
  have hcast : wrap64 ((2 : Int) ^ s.toNat) = ((2 ^ s.toNat : Nat) : Int) := by
    rw [wrap64_two_pow _ (by omega)]
    push_cast
    ring
  rw [hcast, if_neg (Int.not_lt.mpr (Int.natCast_nonneg _)), Int.toNat_natCast]

/-- `SplitPrefix` errors exactly on a non-positive step or a step overshooting
the family's maximum bit length, as long as `p.Bits() + step` does not overflow
the machine `int` (for astronomically large steps the wrapped sum turns
negative, the bounds check passes, and `1 << step` is `0`, so no error is
returned). -/
theorem SplitPrefix_error_iff (p : Pfx) (s : Int) (hm : p.masked = p)
    (hno : (p.bits : Int) + s < 2 ^ 63) :
    (∃ e, SplitPrefix p s = .error e) ↔
      s ≤ 0 ∨ (p.family.maxBits : Int) < (p.bits : Int) + s := by
  simp only [SplitPrefix, hm]
  have hmax : (if p.family = Family.v4 then (32 : Int) else 128) = (p.family.maxBits : Int) := by
    cases p.family <;> simp [Family.maxBits]
  rw [hmax]
  by_cases h1 : s ≤ 0
  · rw [if_pos h1]
    simp [h1]
  · rw [if_neg h1]
    have h63 : (0 : Int) < 2 ^ 63 := by norm_num
    have hb0 : (0 : Int) ≤ (p.bits : Int) := Int.natCast_nonneg _
    have hw : wrap64 ((p.bits : Int) + s) = (p.bits : Int) + s :=
      wrap64_eq_self _ (by omega) hno
    rw [hw]
    by_cases h2 : (p.family.maxBits : Int) < (p.bits : Int) + s
    · rw [if_pos h2]
      simp [h1, h2]
    · rw [if_neg h2]
      by_cases h3 : wrap64 ((2 : Int) ^ s.toNat) < 0
      · rw [if_pos h3]
        simp [h1, h2]
      · rw [if_neg h3]
        simp [h1, h2]

/-- At step 63 (whenever the bounds check passes, i.e. for IPv6 prefixes with
at most 65 network bits) `parts = 1 << 63` is negative and
`make([]netip.Prefix, 0, parts)` panics. -/
theorem SplitPrefix_panic_63 (p : Pfx) (hm : p.masked = p)
    (h2 : (p.bits : Int) + 63 ≤ (p.family.maxBits : Int)) :
    SplitPrefix p 63 = .panic := by
  simp only [SplitPrefix, hm]
  have hmax : (if p.family = Family.v4 then (32 : Int) else 128) = (p.family.maxBits : Int) := by
    cases p.family <;> simp [Family.maxBits]
  have hmb : (p.family.maxBits : Int) ≤ 128 := by
    cases p.family <;> simp [Family.maxBits]
  have h63 : (128 : Int) < 2 ^ 63 := by norm_num
  have hb0 : (0 : Int) ≤ (p.bits : Int) := Int.natCast_nonneg _
  have hw : wrap64 ((p.bits : Int) + 63) = (p.bits : Int) + 63 :=
    wrap64_eq_self _ (by omega) (by omega)
  rw [if_neg (by norm_num), hmax, hw, if_neg (by omega)]
  have hp : wrap64 ((2 : Int) ^ (63 : Int).toNat) = -(2 ^ 63) := wrap64_two_pow_63
  rw [hp, if_pos (by norm_num)]

/-- For steps `≥ 64` (whenever the bounds check passes) `parts = 1 << step` is
`0`, the loop body never runs, and the empty list is returned with a nil
error. -/
theorem SplitPrefix_empty_of_ge_64 (p : Pfx) (s : Int) (hm : p.masked = p)
    (h1 : 64 ≤ s) (h2 : (p.bits : Int) + s ≤ (p.family.maxBits : Int)) :
    SplitPrefix p s = .ok [] := by
  simp only [SplitPrefix, hm]
  have hmax : (if p.family = Family.v4 then (32 : Int) else 128) = (p.family.maxBits : Int) := by
    cases p.family <;> simp [Family.maxBits]
  have hmb : (p.family.maxBits : Int) ≤ 128 := by
    cases p.family <;> simp [Family.maxBits]
  have h63 : (128 : Int) < 2 ^ 63 := by norm_num
  have hb0 : (0 : Int) ≤ (p.bits : Int) := Int.natCast_nonneg _
  have hw : wrap64 ((p.bits : Int) + s) = (p.bits : Int) + s :=
    wrap64_eq_self _ (by omega) (by omega)
  rw [hmax, if_neg (by omega), hw, if_neg (by omega)]
  have hp : wrap64 ((2 : Int) ^ s.toNat) = 0 := wrap64_two_pow_ge _ (by omega)
  rw [hp, if_neg (lt_irrefl 0)]
  rfl

/-- A half-open interval of length `parts * csize` is exactly the ordered union
of `parts` half-open subintervals of length `csize`. -/
theorem interval_partition (base csize parts a : Nat) (hc : 0 < csize) :
    (base ≤ a ∧ a < base + parts * csize) ↔
      ∃ i, i < parts ∧ base + i * csize ≤ a ∧ a < base + i * csize + csize := by
  constructor
  · rintro ⟨h1, h2⟩
    have hd := (div_eq_div_iff_mem_range (a - base) ((a - base) / csize) hc).mp rfl
    have hcm : csize * ((a - base) / csize) = ((a - base) / csize) * csize :=
      Nat.mul_comm _ _
    refine ⟨(a - base) / csize, ?_, by omega, by omega⟩
    rw [Nat.div_lt_iff_lt_mul hc]
    omega
  · rintro ⟨i, hi, h1, h2⟩
    have hmul : (i + 1) * csize ≤ parts * csize :=
      Nat.mul_le_mul_right _ (by omega)
    have hexp : (i + 1) * csize = i * csize + csize := by ring
    omega

/-- Two subintervals of the split containing a common point have equal index. -/
theorem interval_disjoint (base csize a i j : Nat) (hc : 0 < csize)
    (hi : base + i * csize ≤ a ∧ a < base + i * csize + csize)
    (hj : base + j * csize ≤ a ∧ a < base + j * csize + csize) : i = j := by
  have hcm1 : csize * i = i * csize := Nat.mul_comm _ _
  have hcm2 : csize * j = j * csize := Nat.mul_comm _ _
  have di : (a - base) / csize = i :=
    (div_eq_div_iff_mem_range (a - base) i hc).mpr ⟨by omega, by omega⟩
  have dj : (a - base) / csize = j :=
    (div_eq_div_iff_mem_range (a - base) j hc).mpr ⟨by omega, by omega⟩
  omega

/-- `SplitPrefix` in the success case, with each child in solved form. -/
theorem SplitPrefix_children (p : Pfx) (s : Int) (hwf : p.wf) (hm : p.masked = p)
    (h1 : 1 ≤ s) (h2 : (p.bits : Int) + s ≤ (p.family.maxBits : Int)) (h3 : s ≤ 62) :
    SplitPrefix p s = .ok ((List.range (2 ^ s.toNat)).map fun i =>
      (⟨p.family, p.addr + i * 2 ^ (p.family.maxBits - (p.bits + s.toNat)),
        p.bits + s.toNat⟩ : Pfx)) := by
  have hble : p.bits + s.toNat ≤ p.family.maxBits := by omega
  rw [SplitPrefix_eq_ok p s hm (by omega) h2 h3]
  congr 1
  apply List.map_congr_left
  intro i hmem
  have hi : i < 2 ^ s.toNat := List.mem_range.mp hmem
  have hce := childPrefixAddr_eq p s.toNat i hwf hm hble hi
  have hnb : ((p.bits : Int) + s).toNat = p.bits + s.toNat := by omega
  rw [hnb, hce.1]
  have hq0 := masked_addr_eq p hm
  have hhl : p.hostLen = (p.family.maxBits - (p.bits + s.toNat)) + s.toNat := by
    rw [Pfx.hostLen]; omega
  apply masked_of_multiple p.family _ _
    (2 ^ s.toNat * (p.addr >>> p.hostLen) + i)
  calc p.addr + i * 2 ^ (p.family.maxBits - (p.bits + s.toNat))
      = 2 ^ ((p.family.maxBits - (p.bits + s.toNat)) + s.toNat) * (p.addr >>> p.hostLen)
          + i * 2 ^ (p.family.maxBits - (p.bits + s.toNat)) := by
        rw [← hhl, ← hq0]
    _ = 2 ^ (p.family.maxBits - (p.bits + s.toNat))
          * (2 ^ s.toNat * (p.addr >>> p.hostLen) + i) := by
        rw [pow_add]; ring

/-- Each solved-form child is itself masked. -/
theorem SplitPrefix_child_masked (p : Pfx) (st i : Nat) (hm : p.masked = p)
    (hble : p.bits + st ≤ p.family.maxBits) :
    (⟨p.family, p.addr + i * 2 ^ (p.family.maxBits - (p.bits + st)),
      p.bits + st⟩ : Pfx).masked
      = ⟨p.family, p.addr + i * 2 ^ (p.family.maxBits - (p.bits + st)),
          p.bits + st⟩ := by
  have hq0 := masked_addr_eq p hm
  have hhl : p.hostLen = (p.family.maxBits - (p.bits + st)) + st := by
    rw [Pfx.hostLen]; omega
  apply masked_of_multiple p.family _ _ (2 ^ st * (p.addr >>> p.hostLen) + i)
  calc p.addr + i * 2 ^ (p.family.maxBits - (p.bits + st))
      = 2 ^ ((p.family.maxBits - (p.bits + st)) + st) * (p.addr >>> p.hostLen)
          + i * 2 ^ (p.family.maxBits - (p.bits + st)) := by
        rw [← hhl, ← hq0]
    _ = 2 ^ (p.family.maxBits - (p.bits + st))
          * (2 ^ st * (p.addr >>> p.hostLen) + i) := by
        rw [pow_add]; ring

/-- C1, counterexample.  The claim asserts that whenever `s ≥ 1` and
`p.bits + s ≤ family_max_bits(p)` the split succeeds with exactly `2 ^ s`
children.  The code computes `parts := 1 << step` in a machine `int`: at the
IPv6 prefix `::/0` with step 64 the bounds check passes (`0 + 64 ≤ 128`) but
`1 << 64` is `0`, so `SplitPrefix` returns the EMPTY child list with a nil
error — not `2 ^ 64` children; and with step 63, `1 << 63` is negative and
`make([]netip.Prefix, 0, parts)` panics instead of succeeding. -/
theorem C1_splitPrefix_counterexample :
    SplitPrefix ⟨Family.v6, 0, 0⟩ 64 = .ok [] ∧
    (2 : Nat) ^ (64 : Int).toNat ≠ 0 ∧
    SplitPrefix ⟨Family.v6, 0, 0⟩ 63 = .panic := by
  refine ⟨by decide, by decide, by decide⟩

/-- C1, amended.  For every masked prefix `p` and step `s` with `1 ≤ s ≤ 62`
and `p.bits + s ≤ family_max_bits(p)` (for IPv4 the bound `s ≤ 62` is implied,
so all IPv4 cases are covered), `SplitPrefix(p, s)` succeeds and returns
exactly `2 ^ s` children, ordered by ascending index `i`; the `i`-th child has
`bits = p.bits + s` and network value
`p.network_value ||| (i <<< (family_max_bits - (p.bits + s)))`, and the
children partition `p`'s address range exactly (every address of `p` lies in
exactly one child).  Because `parts := 1 << step` is a machine-`int` shift,
at step 63 (bounds check passing) the capacity is negative and `make` panics,
and for steps `64 ≤ s` within bounds the result is the empty list with a nil
error.  `SplitPrefix` returns an error precisely when `s ≤ 0` or
`p.bits + s > family_max_bits`, for all steps for which `p.Bits() + step`
does not overflow the machine `int`. -/
theorem C1_splitPrefix_amended (p : Pfx) (s : Int) (hwf : p.wf) (hm : p.masked = p) :
    ((p.bits : Int) + s < 2 ^ 63 →
      ((∃ e, SplitPrefix p s = .error e) ↔
        s ≤ 0 ∨ (p.family.maxBits : Int) < (p.bits : Int) + s)) ∧
    (s = 63 → (p.bits : Int) + s ≤ (p.family.maxBits : Int) →
      SplitPrefix p s = .panic) ∧
    (64 ≤ s → (p.bits : Int) + s ≤ (p.family.maxBits : Int) →
      SplitPrefix p s = .ok []) ∧
    (1 ≤ s → s ≤ 62 → (p.bits : Int) + s ≤ (p.family.maxBits : Int) →
      ∃ out, SplitPrefix p s = .ok out ∧
        out.length = 2 ^ s.toNat ∧
        (∀ i, (hi : i < out.length) →
          out[i] = ⟨p.family,
            p.addr ||| (i <<< (p.family.maxBits - (p.bits + s.toNat))),
            p.bits + s.toNat⟩) ∧
        (∀ a, containsAddr p a ↔ ∃ c ∈ out, containsAddr c a) ∧
        (∀ i j, (hi : i < out.length) → (hj : j < out.length) → ∀ a : Nat,
          containsAddr out[i] a → containsAddr out[j] a → i = j)) := by
  refine ⟨fun hno => SplitPrefix_error_iff p s hm hno,
    fun hs h2 => by rw [hs] at h2 ⊢; exact SplitPrefix_panic_63 p hm h2,
    fun h1 h2 => SplitPrefix_empty_of_ge_64 p s hm h1 h2,
    fun h1 h3 h2 => ?_⟩
  have hble : p.bits + s.toNat ≤ p.family.maxBits := by omega
  have hcpos : 0 < 2 ^ (p.family.maxBits - (p.bits + s.toNat)) :=
    Nat.pos_pow_of_pos _ (by omega)
  refine ⟨_, SplitPrefix_children p s hwf hm h1 h2 h3, by simp, ?_, ?_, ?_⟩
  · -- the i-th child, written with OR
    intro i hi
    simp only [List.length_map, List.length_range] at hi
    rw [List.getElem_map, List.getElem_range]
    have hor : p.addr ||| (i <<< (p.family.maxBits - (p.bits + s.toNat)))
        = p.addr + i * 2 ^ (p.family.maxBits - (p.bits + s.toNat)) := by
      have hq0 := masked_addr_eq p hm
      have hhl : p.hostLen = (p.family.maxBits - (p.bits + s.toNat)) + s.toNat := by
        rw [Pfx.hostLen]; omega
      exact lor_shifted_eq_add (by rw [← hhl]; exact hq0) hi
    rw [hor]
  · -- children ranges partition the parent's range
    intro a
    have hchild_range : ∀ i : Nat,
        containsAddr ⟨p.family,
          p.addr + i * 2 ^ (p.family.maxBits - (p.bits + s.toNat)),
          p.bits + s.toNat⟩ a ↔
        p.addr + i * 2 ^ (p.family.maxBits - (p.bits + s.toNat)) ≤ a ∧
          a < p.addr + i * 2 ^ (p.family.maxBits - (p.bits + s.toNat))
            + 2 ^ (p.family.maxBits - (p.bits + s.toNat)) := by
      intro i
      rw [contains_iff_range _ (SplitPrefix_child_masked p s.toNat i hm hble)]
      rfl
    have hplen : (2 : Nat) ^ p.hostLen
        = 2 ^ s.toNat * 2 ^ (p.family.maxBits - (p.bits + s.toNat)) := by
      rw [← pow_add]
      congr 1
      rw [Pfx.hostLen]; omega
    rw [contains_iff_range p hm, hplen,
      interval_partition p.addr _ (2 ^ s.toNat) a hcpos]
    constructor
    · rintro ⟨i, hi, hr⟩
      exact ⟨_, List.mem_map.mpr ⟨i, List.mem_range.mpr hi, rfl⟩,
        (hchild_range i).mpr hr⟩
    · rintro ⟨c, hc, hca⟩
      obtain ⟨i, hi, rfl⟩ := List.mem_map.mp hc
      exact ⟨i, List.mem_range.mp hi, (hchild_range i).mp hca⟩
  · -- children ranges are pairwise disjoint
    intro i j hi hj a hia hja
    simp only [List.length_map, List.length_range] at hi hj
    rw [List.getElem_map, List.getElem_range] at hia hja
    have hchild_range : ∀ k : Nat,
        containsAddr ⟨p.family,
          p.addr + k * 2 ^ (p.family.maxBits - (p.bits + s.toNat)),
          p.bits + s.toNat⟩ a ↔
        p.addr + k * 2 ^ (p.family.maxBits - (p.bits + s.toNat)) ≤ a ∧
          a < p.addr + k * 2 ^ (p.family.maxBits - (p.bits + s.toNat))
            + 2 ^ (p.family.maxBits - (p.bits + s.toNat)) := by
      intro k
      rw [contains_iff_range _ (SplitPrefix_child_masked p s.toNat k hm hble)]
      rfl
    exact interval_disjoint p.addr _ a i j hcpos
      ((hchild_range i).mp hia) ((hchild_range j).mp hja)

/-- Witness for C1 (amended) at `1.1.0.0/16` with step 2 (the spec's scenario
S1): the split succeeds with 4 children `1.1.0.0/18, 1.1.64.0/18,
1.1.128.0/18, 1.1.192.0/18`. -/
theorem C1_splitPrefix_amended_witness :
    (∃ out, SplitPrefix ⟨Family.v4, 0x01010000, 16⟩ 2 = .ok out ∧ out.length = 4) ∧
    SplitPrefix ⟨Family.v4, 0x01010000, 16⟩ 2 =
      .ok [⟨Family.v4, 0x01010000, 18⟩, ⟨Family.v4, 0x01014000, 18⟩,
        ⟨Family.v4, 0x01018000, 18⟩, ⟨Family.v4, 0x0101C000, 18⟩] := by
  refine ⟨?_, by rfl⟩
  obtain ⟨out, hok, hlen, -, -, -⟩ :=
    (C1_splitPrefix_amended ⟨Family.v4, 0x01010000, 16⟩ 2
      ⟨by decide, by decide⟩ (by decide)).2.2.2 (by decide) (by decide) (by decide)
  exact ⟨out, hok, by rw [hlen]; rfl⟩

/-! ### `RandomAddr` (src/internal/cidr/cidr.go lines 91-164)

The rng and the cryptographic source are passed in explicitly: `u` models the
one `r.Uint64()` draw of the v4 branch, `fallbackBytes` models the sixteen
`r.Intn(256)` draws of the v6 fallback loop, and `cryptoBytes` models the
`crypto/rand.Read` result (`none` = the read failed).  IPv6 values are
handled byte-wise exactly as in the source (`[16]byte`, big-endian).
-/

/-- Big-endian byte decomposition of a value (Go `netip.Addr.As16` /
`As4`-style): `natToBytes k a` is the `k`-byte big-endian form of `a`. -/
def natToBytes : Nat → Nat → List Nat
  | 0, _ => []
  | k + 1, a => natToBytes k (a / 256) ++ [a % 256]

/-- Big-endian byte recomposition (Go `netip.AddrFrom16` / `AddrFrom4`). -/
def bytesToNat (l : List Nat) : Nat := l.foldl (fun acc b => acc * 256 + b) 0

/-- The `for i := 0; i < fullBytes; i++ { b[i] = 0 }` loop of `keepHostBits`. -/
def zeroFirst : Nat → List Nat → List Nat
  | 0, l => l
  | _ + 1, [] => []
  | n + 1, _ :: xs => 0 :: zeroFirst n xs

/-- `keepHostBits` (cidr.go line 143): zero the top `128 - hostBits` bits of a
16-byte buffer. -/
def keepHostBits (b : List Nat) (hostBits : Nat) : List Nat :=
  let topBits : Int := 128 - (hostBits : Int)
  if topBits ≤ 0 then b
  else
    let fullBytes := topBits.toNat / 8
    let remBits := topBits.toNat % 8
    let b1 := zeroFirst fullBytes b
    if 0 < remBits ∧ fullBytes < 16 then
      b1.set fullBytes ((b1.getD fullBytes 0) &&& (0xFF >>> remBits))
    else b1

/-- `applyHostBits` (cidr.go line 160): OR the random host bits into the
network base, byte by byte. -/
def applyHostBits (base host : List Nat) : List Nat :=
  List.zipWith (fun x y => x ||| y) base host

/-- `randomAddr4` (cidr.go line 101).  `u` is the `r.Uint64()` draw. -/
def randomAddr4 (p : Pfx) (u : Nat) : Nat :=
  let base := p.addr
  let hostBits := 32 - p.bits
  let host := if hostBits = 0 then 0 else (u &&& ((1 <<< hostBits) - 1)) % 2 ^ 32
  base ||| host

/-- `randomAddr6` (cidr.go line 117).  The Go `hostBits <= 0` test is
`128 ≤ p.bits` for a `Nat` bit count. -/
def randomAddr6 (p : Pfx) (cryptoBytes : Option (List Nat)) (fallbackBytes : List Nat) :
    Nat :=
  let a := natToBytes 16 p.addr
  if 128 ≤ p.bits then bytesToNat a
  else
    let hostBits := 128 - p.bits
    -- `crypto/rand.Read` result if it succeeded, else the rng fallback bytes
    let rand128 := cryptoBytes.getD fallbackBytes
    bytesToNat (applyHostBits a (keepHostBits rand128 hostBits))

/-- `RandomAddr` (cidr.go line 93): mask, then dispatch on the family. -/
def RandomAddr (p : Pfx) (cryptoBytes : Option (List Nat)) (u : Nat)
    (fallbackBytes : List Nat) : Nat :=
  let q := p.masked
  if q.family = .v4 then randomAddr4 q u else randomAddr6 q cryptoBytes fallbackBytes

/-- A valid 16-byte buffer. -/
def Bytes16 (l : List Nat) : Prop := l.length = 16 ∧ ∀ x ∈ l, x < 256

/-! ### Byte-level lemmas -/

theorem bytesToNat_foldl_acc (l : List Nat) :
    ∀ a : Nat, l.foldl (fun acc b => acc * 256 + b) a = a * 256 ^ l.length + bytesToNat l := by
  induction l with
  | nil => intro a; simp [bytesToNat]
  | cons b t ih =>
    intro a
    have hbt : bytesToNat (b :: t) = b * 256 ^ t.length + bytesToNat t := by
      show List.foldl _ (0 * 256 + b) t = _
      rw [ih]
      ring_nf
    show List.foldl _ (a * 256 + b) t = _
    rw [ih, hbt, List.length_cons, pow_succ]
    ring

theorem bytesToNat_cons (b : Nat) (t : List Nat) :
    bytesToNat (b :: t) = b * 256 ^ t.length + bytesToNat t := by
  show List.foldl _ (0 * 256 + b) t = _
  rw [bytesToNat_foldl_acc]
  ring_nf

theorem bytesToNat_lt (l : List Nat) (h : ∀ x ∈ l, x < 256) :
    bytesToNat l < 256 ^ l.length := by
  induction l with
  | nil => simp [bytesToNat]
  | cons b t ih =>
    rw [bytesToNat_cons, List.length_cons]
    have hb : b < 256 := h b (List.mem_cons_self b t)
    have ht : bytesToNat t < 256 ^ t.length := ih (fun x hx => h x (List.mem_cons_of_mem _ hx))
    calc b * 256 ^ t.length + bytesToNat t
        < b * 256 ^ t.length + 256 ^ t.length := by omega
      _ = (b + 1) * 256 ^ t.length := by ring
      _ ≤ 256 * 256 ^ t.length := Nat.mul_le_mul_right _ (by omega)
      _ = 256 ^ (t.length + 1) := by rw [pow_succ]; ring

theorem natToBytes_length (k a : Nat) : (natToBytes k a).length = k := by
  induction k generalizing a with
  | zero => rfl
  | succ k ih => simp [natToBytes, ih]

theorem natToBytes_lt (k a : Nat) : ∀ x ∈ natToBytes k a, x < 256 := by
  induction k generalizing a with
  | zero => intro x hx; simp [natToBytes] at hx
  | succ k ih =>
    intro x hx
    simp only [natToBytes, List.mem_append, List.mem_singleton] at hx
    rcases hx with hx | rfl
    · exact ih _ x hx
    · exact Nat.mod_lt _ (by omega)

theorem bytesToNat_natToBytes (k a : Nat) :
    bytesToNat (natToBytes k a) = a % 256 ^ k := by
  induction k generalizing a with
  | zero => simp [natToBytes, bytesToNat, Nat.mod_one]
  | succ k ih =>
    show bytesToNat (natToBytes k (a / 256) ++ [a % 256]) = _
    have happ : bytesToNat (natToBytes k (a / 256) ++ [a % 256])
        = bytesToNat (natToBytes k (a / 256)) * 256 + a % 256 := by
      show List.foldl _ 0 _ = _
      rw [List.foldl_append]
      rfl
    have hmm : a % (256 * 256 ^ k) = a % 256 + 256 * (a / 256 % 256 ^ k) := Nat.mod_mul
    have hpow : (256 : Nat) ^ (k + 1) = 256 * 256 ^ k := by rw [pow_succ]; ring
    rw [happ, ih, hpow]
    omega

theorem lor_block (n x y A B : Nat) (hA : A < 2 ^ n) (hB : B < 2 ^ n) :
    (x * 2 ^ n + A) ||| (y * 2 ^ n + B) = (x ||| y) * 2 ^ n + (A ||| B) := by
  have hAB : A ||| B < 2 ^ n := Nat.or_lt_two_pow hA hB
  have hdist : 2 ^ n * (x ||| y) = 2 ^ n * x ||| 2 ^ n * y := by
    rw [Nat.mul_comm _ (x ||| y), ← Nat.shiftLeft_eq, shiftLeft_lor_distrib,
      Nat.shiftLeft_eq, Nat.shiftLeft_eq, Nat.mul_comm x, Nat.mul_comm y]
  rw [Nat.mul_comm x, Nat.mul_comm y, Nat.mul_comm (x ||| y),
    Nat.mul_add_lt_is_or hA x, Nat.mul_add_lt_is_or hB y,
    Nat.mul_add_lt_is_or hAB (x ||| y), hdist]
  rw [Nat.lor_assoc, ← Nat.lor_assoc A (2 ^ n * y) B, Nat.lor_comm A (2 ^ n * y),
    Nat.lor_assoc (2 ^ n * y) A B, ← Nat.lor_assoc]

theorem pow256_eq (m : Nat) : (256 : Nat) ^ m = 2 ^ (8 * m) := by
  rw [show (256 : Nat) = 2 ^ 8 from rfl, ← pow_mul]

theorem bytesToNat_applyHostBits (xs : List Nat) :
    ∀ ys : List Nat, xs.length = ys.length → (∀ x ∈ xs, x < 256) →
      (∀ y ∈ ys, y < 256) →
      bytesToNat (applyHostBits xs ys) = bytesToNat xs ||| bytesToNat ys := by
  induction xs with
  | nil =>
    intro ys hlen _ _
    have : ys = [] := List.eq_nil_of_length_eq_zero hlen.symm
    subst this
    rfl
  | cons x xs ih =>
    intro ys hlen hx hy
    cases ys with
    | nil => simp at hlen
    | cons y ys =>
      have hlen' : xs.length = ys.length := by simpa using hlen
      show bytesToNat ((x ||| y) :: applyHostBits xs ys) = _
      rw [bytesToNat_cons, bytesToNat_cons, bytesToNat_cons]
      have hzlen : (applyHostBits xs ys).length = xs.length := by
        simp [applyHostBits, hlen']
      rw [hzlen, ih ys hlen' (fun a ha => hx a (List.mem_cons_of_mem _ ha))
        (fun a ha => hy a (List.mem_cons_of_mem _ ha))]
      rw [hlen']
      rw [pow256_eq]
      exact (lor_block _ x y _ _
        (by rw [← pow256_eq, ← hlen']
            exact bytesToNat_lt xs (fun a ha => hx a (List.mem_cons_of_mem _ ha)))
        (by rw [← pow256_eq]
            exact bytesToNat_lt ys (fun a ha => hy a (List.mem_cons_of_mem _ ha)))).symm

theorem zeroFirst_length (n : Nat) (l : List Nat) : (zeroFirst n l).length = l.length := by
  induction n generalizing l with
  | zero => rfl
  | succ n ih =>
    cases l with
    | nil => rfl
    | cons x xs => simp [zeroFirst, ih]

theorem zeroFirst_mem (n : Nat) (l : List Nat) :
    ∀ x ∈ zeroFirst n l, x = 0 ∨ x ∈ l := by
  induction n generalizing l with
  | zero => intro x hx; exact Or.inr hx
  | succ n ih =>
    cases l with
    | nil => intro x hx; simp [zeroFirst] at hx
    | cons y ys =>
      intro x hx
      simp only [zeroFirst, List.mem_cons] at hx
      rcases hx with rfl | hx
      · exact Or.inl rfl
      · rcases ih ys x hx with h | h
        · exact Or.inl h
        · exact Or.inr (List.mem_cons_of_mem _ h)

theorem bytesToNat_zeroFirst_lt (n : Nat) (l : List Nat) (h : ∀ x ∈ l, x < 256) :
    bytesToNat (zeroFirst n l) < 256 ^ (l.length - n) := by
  induction n generalizing l with
  | zero => simpa using bytesToNat_lt l h
  | succ n ih =>
    cases l with
    | nil => simp [zeroFirst, bytesToNat]
    | cons x xs =>
      show bytesToNat (0 :: zeroFirst n xs) < _
      rw [bytesToNat_cons, zeroFirst_length]
      have hxs := ih xs (fun a ha => h a (List.mem_cons_of_mem _ ha))
      simpa using hxs

theorem bytesToNat_zeroFirst_set_lt (n : Nat) (l : List Nat) (w M : Nat)
    (hl : ∀ x ∈ l, x < 256) (hn : n < l.length) (hw : w < M) :
    bytesToNat ((zeroFirst n l).set n w) < M * 256 ^ (l.length - n - 1) := by
  induction n generalizing l with
  | zero =>
    cases l with
    | nil => simp at hn
    | cons x xs =>
      show bytesToNat (w :: xs) < _
      rw [bytesToNat_cons]
      have hxs : bytesToNat xs < 256 ^ xs.length :=
        bytesToNat_lt xs (fun a ha => hl a (List.mem_cons_of_mem _ ha))
      have hlen : (x :: xs).length - 0 - 1 = xs.length := by simp
      rw [hlen]
      calc w * 256 ^ xs.length + bytesToNat xs
          < w * 256 ^ xs.length + 256 ^ xs.length := by omega
        _ = (w + 1) * 256 ^ xs.length := by ring
        _ ≤ M * 256 ^ xs.length := Nat.mul_le_mul_right _ (by omega)
  | succ n ih =>
    cases l with
    | nil => simp at hn
    | cons x xs =>
      show bytesToNat ((0 :: zeroFirst n xs).set (n + 1) w) < _
      rw [List.set_cons_succ, bytesToNat_cons, List.length_set, zeroFirst_length]
      have hxs := ih xs (fun a ha => hl a (List.mem_cons_of_mem _ ha)) (by simpa using hn)
      have hlen : (x :: xs).length - (n + 1) - 1 = xs.length - n - 1 := by simp
      rw [hlen]
      simpa using hxs

/-- `keepHostBits` keeps only `hostBits` bits: the recomposed value is below
`2 ^ hostBits`; the buffer stays 16 valid bytes. -/
theorem keepHostBits_spec (b : List Nat) (h : Nat) (hb : Bytes16 b) :
    bytesToNat (keepHostBits b h) < 2 ^ min h 128 ∧ Bytes16 (keepHostBits b h) := by
  obtain ⟨hlen, hbyte⟩ := hb
  by_cases h128 : 128 ≤ h
  · have : keepHostBits b h = b := by
      unfold keepHostBits
      rw [if_pos (by omega)]
    rw [this]
    refine ⟨?_, hlen, hbyte⟩
    have := bytesToNat_lt b hbyte
    rw [hlen] at this
    calc bytesToNat b < 256 ^ 16 := this
      _ = 2 ^ 128 := by rw [pow256_eq]
      _ ≤ 2 ^ min h 128 := by
        apply Nat.pow_le_pow_right (by omega)
        omega
  · -- h < 128 : topBits = 128 - h ≥ 1
    have hmin : min h 128 = h := by omega
    rw [hmin]
    have htop : ((128 : Int) - (h : Int)).toNat = 128 - h := by omega
    have hdm := Nat.div_add_mod (128 - h) 8
    unfold keepHostBits
    rw [if_neg (by omega), htop]
    by_cases hrem : 0 < (128 - h) % 8 ∧ (128 - h) / 8 < 16
    · rw [if_pos hrem]
      obtain ⟨hr1, hfb⟩ := hrem
      have hr8 : (128 - h) % 8 < 8 := Nat.mod_lt _ (by omega)
      have hmask : (0xFF : Nat) >>> ((128 - h) % 8) < 2 ^ (8 - (128 - h) % 8) := by
        have : (128 - h) % 8 = 1 ∨ (128 - h) % 8 = 2 ∨ (128 - h) % 8 = 3 ∨
            (128 - h) % 8 = 4 ∨ (128 - h) % 8 = 5 ∨ (128 - h) % 8 = 6 ∨
            (128 - h) % 8 = 7 := by omega
        rcases this with hv | hv | hv | hv | hv | hv | hv <;> rw [hv] <;> decide
      have hwlt : (zeroFirst ((128 - h) / 8) b).getD ((128 - h) / 8) 0
            &&& (0xFF >>> ((128 - h) % 8)) < 2 ^ (8 - (128 - h) % 8) :=
        Nat.and_lt_two_pow _ hmask
      constructor
      · have hbound := bytesToNat_zeroFirst_set_lt ((128 - h) / 8) b _ _
          hbyte (by omega) hwlt
        calc bytesToNat ((zeroFirst ((128 - h) / 8) b).set ((128 - h) / 8) _)
            < 2 ^ (8 - (128 - h) % 8) * 256 ^ (b.length - (128 - h) / 8 - 1) := hbound
          _ = 2 ^ (8 - (128 - h) % 8) * 2 ^ (8 * (b.length - (128 - h) / 8 - 1)) := by
              rw [pow256_eq]
          _ = 2 ^ (8 - (128 - h) % 8 + 8 * (b.length - (128 - h) / 8 - 1)) := by
              rw [← pow_add]
          _ ≤ 2 ^ h := by
              apply Nat.pow_le_pow_right (by omega)
              rw [hlen]
              omega
      · constructor
        · rw [List.length_set, zeroFirst_length, hlen]
        · intro x hx
          rcases List.mem_or_eq_of_mem_set hx with hx' | rfl
          · rcases zeroFirst_mem _ b x hx' with rfl | hx''
            · omega
            · exact hbyte x hx''
          · have hm256 : (0xFF : Nat) >>> ((128 - h) % 8) < 2 ^ 8 := by
              rw [Nat.shiftRight_eq_div_pow]
              have := Nat.div_le_self 0xFF (2 ^ ((128 - h) % 8))
              omega
            exact Nat.and_lt_two_pow _ hm256
    · rw [if_neg hrem]
      -- remBits = 0 (when fullBytes = 16, i.e. h = 0, remBits is 0 as well)
      have hr0 : (128 - h) % 8 = 0 := by
        by_contra hne
        have h1 : 0 < (128 - h) % 8 := Nat.pos_of_ne_zero hne
        have h2 : ¬ (128 - h) / 8 < 16 := fun hlt => hrem ⟨h1, hlt⟩
        omega
      constructor
      · have hbound := bytesToNat_zeroFirst_lt ((128 - h) / 8) b hbyte
        calc bytesToNat (zeroFirst ((128 - h) / 8) b)
            < 256 ^ (b.length - (128 - h) / 8) := hbound
          _ = 2 ^ (8 * (b.length - (128 - h) / 8)) := by rw [pow256_eq]
          _ ≤ 2 ^ h := by
              apply Nat.pow_le_pow_right (by omega)
              rw [hlen]
              omega
      · constructor
        · rw [zeroFirst_length, hlen]
        · intro x hx
          rcases zeroFirst_mem _ b x hx with rfl | hx'
          · omega
          · exact hbyte x hx'

/-- ORing fewer than `2 ^ hostLen` host bits into a masked prefix's network
value stays inside the prefix. -/
theorem lor_host_contains (p : Pfx) (hm : p.masked = p) (K : Nat)
    (hK : K < 2 ^ p.hostLen) : containsAddr p (p.addr ||| K) := by
  have haddr := masked_addr_eq p hm
  have hpos : 0 < 2 ^ p.hostLen := Nat.pos_pow_of_pos _ (by omega)
  show (p.addr ||| K) >>> p.hostLen = p.addr >>> p.hostLen
  have key : ∀ q : Nat, ((2 ^ p.hostLen * q) ||| K) >>> p.hostLen
      = (2 ^ p.hostLen * q) >>> p.hostLen := by
    intro q
    rw [lor_eq_add_of_lt hK, Nat.shiftRight_eq_div_pow, Nat.shiftRight_eq_div_pow,
      Nat.mul_add_div hpos, Nat.div_eq_of_lt hK, Nat.mul_div_cancel_left _ hpos]
    omega
  calc (p.addr ||| K) >>> p.hostLen
      = ((2 ^ p.hostLen * (p.addr >>> p.hostLen)) ||| K) >>> p.hostLen := by
        rw [← haddr]
    _ = (2 ^ p.hostLen * (p.addr >>> p.hostLen)) >>> p.hostLen := key _
    _ = p.addr >>> p.hostLen := by rw [← haddr]

/-- The v4 draw is below `2 ^ hostLen`. -/
theorem randomAddr4_host_lt (p : Pfx) (u : Nat) (hfam : p.family = .v4) :
    (if 32 - p.bits = 0 then 0 else (u &&& ((1 <<< (32 - p.bits)) - 1)) % 2 ^ 32)
      < 2 ^ p.hostLen := by
  have hhl : p.hostLen = 32 - p.bits := by rw [Pfx.hostLen, hfam]; rfl
  rw [hhl]
  by_cases h0 : 32 - p.bits = 0
  · rw [if_pos h0]
    exact Nat.pos_pow_of_pos _ (by omega)
  · rw [if_neg h0]
    have hmask : (1 : Nat) <<< (32 - p.bits) - 1 < 2 ^ (32 - p.bits) := by
      rw [Nat.shiftLeft_eq, Nat.one_mul]
      exact Nat.sub_lt (Nat.pos_pow_of_pos _ (by omega)) (by omega)
    have hand : u &&& ((1 <<< (32 - p.bits)) - 1) < 2 ^ (32 - p.bits) :=
      Nat.and_lt_two_pow u hmask
    calc (u &&& ((1 <<< (32 - p.bits)) - 1)) % 2 ^ 32
        ≤ u &&& ((1 <<< (32 - p.bits)) - 1) := Nat.mod_le _ _
      _ < 2 ^ (32 - p.bits) := hand

/-- C2.  For every masked well-formed prefix `p` and every rng draw,
`RandomAddr(p, r)` returns an address contained in `p` (its top `p.bits` bits
equal `p`'s network bits); and when `p` has zero host bits
(`p.bits = family_max_bits`) it returns exactly `p`'s own address, whatever
the rng and the cryptographic source produced. -/
theorem C2_randomAddr_contains (p : Pfx) (c : Option (List Nat)) (u : Nat)
    (fb : List Nat) (hwf : p.wf) (hm : p.masked = p)
    (hc : ∀ bs, c = some bs → Bytes16 bs) (hfb : Bytes16 fb) :
    containsAddr p (RandomAddr p c u fb) ∧
    (p.bits = p.family.maxBits → RandomAddr p c u fb = p.addr) := by
  obtain ⟨hwa, hwb⟩ := hwf
  have hRA : RandomAddr p c u fb
      = if p.family = .v4 then randomAddr4 p u else randomAddr6 p c fb := by
    unfold RandomAddr
    rw [hm]
  by_cases hfam : p.family = .v4
  · -- v4 branch
    rw [hRA, if_pos hfam]
    have hhost := randomAddr4_host_lt p u hfam
    constructor
    · exact lor_host_contains p hm _ hhost
    · intro hbits
      show p.addr ||| _ = p.addr
      have h0 : 32 - p.bits = 0 := by rw [hbits, hfam]; rfl
      rw [h0]
      simp
  · -- v6 branch
    have hfam6 : p.family = .v6 := by
      cases hf : p.family
      · exact absurd hf hfam
      · rfl
    have hmax : p.family.maxBits = 128 := by rw [hfam6]; rfl
    have ha16 : bytesToNat (natToBytes 16 p.addr) = p.addr := by
      rw [bytesToNat_natToBytes]
      apply Nat.mod_eq_of_lt
      calc p.addr < 2 ^ p.family.maxBits := hwa
        _ = 2 ^ 128 := by rw [hmax]
        _ = 256 ^ 16 := by rw [pow256_eq]
    rw [hRA, if_neg hfam]
    by_cases hb128 : 128 ≤ p.bits
    · have : randomAddr6 p c fb = bytesToNat (natToBytes 16 p.addr) := by
        unfold randomAddr6
        rw [if_pos hb128]
      rw [this, ha16]
      exact ⟨by rfl, fun _ => rfl⟩
    · have hbits_lt : p.bits < 128 := by omega
      have hrand : Bytes16 (c.getD fb) := by
        cases c with
        | none => exact hfb
        | some bs => exact hc bs rfl
      obtain ⟨hkb, hkbytes⟩ := keepHostBits_spec (c.getD fb) (128 - p.bits) hrand
      have hmin : min (128 - p.bits) 128 = 128 - p.bits := by omega
      rw [hmin] at hkb
      have hhl : p.hostLen = 128 - p.bits := by rw [Pfx.hostLen, hmax]
      have h6 : randomAddr6 p c fb
          = bytesToNat (applyHostBits (natToBytes 16 p.addr)
              (keepHostBits (c.getD fb) (128 - p.bits))) := by
        unfold randomAddr6
        rw [if_neg hb128]
      have happly : bytesToNat (applyHostBits (natToBytes 16 p.addr)
            (keepHostBits (c.getD fb) (128 - p.bits)))
          = p.addr ||| bytesToNat (keepHostBits (c.getD fb) (128 - p.bits)) := by
        rw [bytesToNat_applyHostBits _ _
          (by rw [natToBytes_length, hkbytes.1])
          (natToBytes_lt 16 p.addr) hkbytes.2, ha16]
      constructor
      · rw [h6, happly]
        apply lor_host_contains p hm
        rw [hhl]
        exact hkb
      · intro hbits
        rw [hmax] at hbits
        omega

/-- Witness for C2 at `10.0.0.0/30` (the spec's scenario S3 prefix) with a
concrete draw `u = 42`, a failed crypto read and an all-zero fallback, plus a
zero-host-bits check at `10.1.2.3/32`: the sampled address is inside the
prefix, and the /32 returns itself. -/
theorem C2_randomAddr_contains_witness :
    containsAddr ⟨Family.v4, 0x0A000000, 30⟩
      (RandomAddr ⟨Family.v4, 0x0A000000, 30⟩ none 42 (List.replicate 16 0)) ∧
    RandomAddr ⟨Family.v4, 0x0A010203, 32⟩ none 42 (List.replicate 16 0) = 0x0A010203 := by
  constructor
  · exact (C2_randomAddr_contains ⟨Family.v4, 0x0A000000, 30⟩ none 42
      (List.replicate 16 0) ⟨by decide, by decide⟩ (by decide)
      (fun bs hbs => by cases hbs) ⟨by decide, by decide⟩).1
  · exact (C2_randomAddr_contains ⟨Family.v4, 0x0A010203, 32⟩ none 42
      (List.replicate 16 0) ⟨by decide, by decide⟩ (by decide)
      (fun bs hbs => by cases hbs) ⟨by decide, by decide⟩).2 (by decide)

/-- C5 counterexample.  Address sampling is not a deterministic function of
the provided seeded rng: with identical rng inputs (`u` and the fallback byte
draws), two different outcomes of the process-wide cryptographic source give
two different sampled IPv6 addresses, so runs with identical seed need not be
byte-identical on IPv6 input. -/
theorem C5_crypto_nondeterminism_counterexample :
    RandomAddr ⟨Family.v6, 0, 0⟩ (some (List.replicate 16 0)) 0 (List.replicate 16 0)
      ≠ RandomAddr ⟨Family.v6, 0, 0⟩ (some (List.replicate 15 0 ++ [1])) 0
          (List.replicate 16 0) := by
  decide

/-- C5 (amended).  Sampling is a deterministic function of the provided rng
exactly on the rng-driven paths: a v4 sample depends only on the rng draw
(never on the cryptographic source or the v6 fallback draws); a v6 sample
never consults the v4 rng draw; and when the cryptographic read succeeds, a
v6 sample ignores the rng fallback draws (so identical seeds do not make v6
sampling deterministic). -/
theorem C5_sampling_determinism_amended :
    (∀ (p : Pfx) (u : Nat) (c₁ c₂ : Option (List Nat)) (f₁ f₂ : List Nat),
      p.family = .v4 → RandomAddr p c₁ u f₁ = RandomAddr p c₂ u f₂) ∧
    (∀ (p : Pfx) (c : Option (List Nat)) (u₁ u₂ : Nat) (f : List Nat),
      p.family = .v6 → RandomAddr p c u₁ f = RandomAddr p c u₂ f) ∧
    (∀ (p : Pfx) (bs : List Nat) (u : Nat) (f₁ f₂ : List Nat),
      p.family = .v6 → RandomAddr p (some bs) u f₁ = RandomAddr p (some bs) u f₂) := by
  refine ⟨?_, ?_, ?_⟩
  · intro p u c₁ c₂ f₁ f₂ hfam
    unfold RandomAddr
    have : p.masked.family = Family.v4 := hfam
    rw [if_pos this, if_pos this]
  · intro p c u₁ u₂ f hfam
    unfold RandomAddr
    have : p.masked.family = Family.v6 := hfam
    rw [if_neg (by rw [this]; intro hc; cases hc), if_neg (by rw [this]; intro hc; cases hc)]
  · intro p bs u f₁ f₂ hfam
    unfold RandomAddr
    have : p.masked.family = Family.v6 := hfam
    rw [if_neg (by rw [this]; intro hc; cases hc), if_neg (by rw [this]; intro hc; cases hc)]
    unfold randomAddr6
    rfl

/-- Witness for the amended C5 at concrete inputs: a v4 sample is unchanged
when the crypto read changes, and a v6 sample with a successful crypto read is
unchanged when the fallback draws change. -/
theorem C5_sampling_determinism_amended_witness :
    RandomAddr ⟨Family.v4, 0x01010000, 16⟩ (some (List.replicate 16 7)) 42 []
      = RandomAddr ⟨Family.v4, 0x01010000, 16⟩ none 42 (List.replicate 16 9) ∧
    RandomAddr ⟨Family.v6, 0, 64⟩ (some (List.replicate 16 7)) 1 []
      = RandomAddr ⟨Family.v6, 0, 64⟩ (some (List.replicate 16 7)) 1
          (List.replicate 16 9) := by
  constructor
  · exact C5_sampling_determinism_amended.1 ⟨Family.v4, 0x01010000, 16⟩ 42
      (some (List.replicate 16 7)) none [] (List.replicate 16 9) (by decide)
  · exact C5_sampling_determinism_amended.2.2 ⟨Family.v6, 0, 64⟩
      (List.replicate 16 7) 1 [] (List.replicate 16 9) (by decide)

/-! ### Top-N heap (src/unnamed/part_000, package `search`)

`TopResult` is declared outside the given source files; modelled from the
spec (§3): only `ip` (compared for equality by the heap) and `score_ms`
(compared by `<`) drive the heap, so the remaining fields (`owning_prefix`,
the probe outcome, per-prefix counters) are collapsed into one opaque `rest`
component, and the `float64` `score_ms` is modelled as `Int` — the heap only
ever compares scores, never computes with them.

`sort.SliceStable(buf, less)` with `less i j := buf[i].ScoreMS <
buf[j].ScoreMS` produces the unique stable ascending reordering of `buf`;
stable insertion sort on the non-strict order `scoreLE` produces the same
list, and it evaluates inside the kernel.  The `for i := range t.buf` dedup
loop of `Consider` is `considerBuf`: on the first entry with the same IP it
replaces that entry iff the new score is strictly smaller, then finishes;
with no match it reports `none` and `Consider` appends.
-/

structure TopResult where
  ip : Nat
  scoreMS : Int
  rest : Nat
deriving DecidableEq, Repr

structure topN where
  n : Int
  buf : List TopResult
deriving DecidableEq, Repr

/-- The heap state built by `newTopN` (part_000 line 15) when the `make` call
succeeds: `&topN{n: n, buf: make([]TopResult, 0, n)}`, an empty buffer. -/
def newTopN (n : Int) : topN := ⟨n, []⟩

/-- `newTopN` (part_000 line 15) with the run-time behaviour of
`make([]TopResult, 0, n)` made explicit: a negative capacity makes `make`
panic ("makeslice: cap out of range"), so no heap is created — modelled as
`none`. -/
def newTopNMade (n : Int) : Option topN :=
  if n < 0 then none else some (newTopN n)

def scoreLE (a b : TopResult) : Prop := a.scoreMS ≤ b.scoreMS

instance : DecidableRel scoreLE := fun a b => inferInstanceAs (Decidable (_ ≤ _))

instance : IsTotal TopResult scoreLE := ⟨fun a b => Int.le_total a.scoreMS b.scoreMS⟩

instance : IsTrans TopResult scoreLE := ⟨fun _ _ _ h1 h2 => le_trans h1 h2⟩

/-- `sortLocked` (part_000 line 61). -/
def sortLocked (buf : List TopResult) : List TopResult := buf.insertionSort scoreLE

/-- `trimLocked` (part_000 line 67). -/
def trimLocked (n : Int) (buf : List TopResult) : List TopResult :=
  if (buf.length : Int) > n then buf.take n.toNat else buf

/-- The dedup loop of `Consider` (part_000 lines 28-37): find the first entry
with the given IP; replace it iff the new score is strictly smaller; `none`
when no entry matches. -/
def considerBuf : List TopResult → TopResult → Option (List TopResult)
  | [], _ => none
  | e :: es, r =>
    if e.ip = r.ip then
      some (if r.scoreMS < e.scoreMS then r :: es else e :: es)
    else
      (considerBuf es r).map (fun l => e :: l)

/-- `Consider` (part_000 line 19). -/
def Consider (t : topN) (r : TopResult) : topN :=
  if t.n ≤ 0 then t
  else
    match considerBuf t.buf r with
    | some buf' => ⟨t.n, trimLocked t.n (sortLocked buf')⟩
    | none => ⟨t.n, trimLocked t.n (sortLocked (t.buf ++ [r]))⟩

/-- `Snapshot` (part_000 line 53) — returns a copy of the buffer. -/
def Snapshot (t : topN) : List TopResult := t.buf

/-- The heap after a finite sequence of `Consider` calls on `newTopN n`. -/
def runConsiders (n : Int) (rs : List TopResult) : topN :=
  rs.foldl Consider (newTopN n)

/-- The spec's `consider` algorithm (§4.3), written from its words: 1. if an
entry with `r.ip` exists, replace it iff `r.score_ms < existing.score_ms`,
otherwise drop `r`; 2. else append; 3. stably sort ascending by `score_ms`;
4. truncate to `n`. -/
def considerSpec (t : topN) (r : TopResult) : topN :=
  let buf1 := match considerBuf t.buf r with
    | some buf' => buf'
    | none => t.buf ++ [r]
  ⟨t.n, (sortLocked buf1).take t.n.toNat⟩

/-! ### Heap lemmas -/

theorem considerBuf_none_iff (l : List TopResult) (r : TopResult) :
    considerBuf l r = none ↔ ∀ e ∈ l, e.ip ≠ r.ip := by
  induction l with
  | nil => simp [considerBuf]
  | cons e es ih =>
    by_cases hip : e.ip = r.ip
    · simp [considerBuf, hip]
    · simp only [considerBuf, if_neg hip, Option.map_eq_none', ih, List.mem_cons]
      constructor
      · intro h x hx
        rcases hx with rfl | hx
        · exact hip
        · exact h x hx
      · intro h x hx
        exact h x (Or.inr hx)

theorem considerBuf_map_ip (l : List TopResult) (r : TopResult) :
    ∀ l', considerBuf l r = some l' → l'.map (·.ip) = l.map (·.ip) := by
  induction l with
  | nil => intro l' h; simp [considerBuf] at h
  | cons e es ih =>
    intro l' h
    by_cases hip : e.ip = r.ip
    · rw [considerBuf, if_pos hip] at h
      by_cases hsc : r.scoreMS < e.scoreMS
      · rw [if_pos hsc] at h
        cases h
        simp [hip]
      · rw [if_neg hsc] at h
        cases h
        rfl
    · rw [considerBuf, if_neg hip] at h
      cases hcb : considerBuf es r with
      | none => rw [hcb] at h; cases h
      | some l'' =>
        rw [hcb] at h
        cases h
        simp only [List.map_cons]
        rw [ih l'' hcb]

theorem considerBuf_self (l : List TopResult) (r : TopResult)
    (hnd : (l.map (·.ip)).Nodup) (hmem : r ∈ l) : considerBuf l r = some l := by
  induction l with
  | nil => cases hmem
  | cons e es ih =>
    rcases List.mem_cons.mp hmem with rfl | hmem'
    · rw [considerBuf, if_pos rfl, if_neg (by omega)]
    · by_cases hip : e.ip = r.ip
      · exfalso
        rw [List.map_cons, List.nodup_cons] at hnd
        exact hnd.1 (hip ▸ List.mem_map_of_mem (·.ip) hmem')
      · rw [considerBuf, if_neg hip,
          ih (by rw [List.map_cons, List.nodup_cons] at hnd; exact hnd.2) hmem']
        rfl

theorem sortLocked_sorted (l : List TopResult) : (sortLocked l).Pairwise scoreLE :=
  List.sorted_insertionSort scoreLE l

theorem sortLocked_perm (l : List TopResult) : sortLocked l ~ l :=
  List.perm_insertionSort scoreLE l

theorem sortLocked_of_sorted {l : List TopResult} (h : l.Pairwise scoreLE) :
    sortLocked l = l :=
  List.Sorted.insertionSort_eq h

theorem sortLocked_length (l : List TopResult) : (sortLocked l).length = l.length :=
  List.length_insertionSort scoreLE l

/-- The reachability invariant of the heap: sorted buffer, no duplicate IPs,
and size at most `max n 0`. -/
def Inv (t : topN) : Prop :=
  t.buf.Pairwise scoreLE ∧ (t.buf.map (·.ip)).Nodup ∧
    (t.buf.length : Int) ≤ max t.n 0

theorem inv_newTopN (n : Int) : Inv (newTopN n) := by
  refine ⟨List.Pairwise.nil, List.nodup_nil, ?_⟩
  simp [newTopN]

theorem inv_mk (n : Int) (hn : ¬n ≤ 0) (buf1 : List TopResult)
    (hnd : (buf1.map (·.ip)).Nodup) :
    Inv ⟨n, trimLocked n (sortLocked buf1)⟩ := by
  have hsub : trimLocked n (sortLocked buf1) <+ sortLocked buf1 := by
    unfold trimLocked
    split
    · exact List.take_sublist _ _
    · exact List.Sublist.refl _
  refine ⟨(sortLocked_sorted buf1).sublist hsub, ?_, ?_⟩
  · have hperm : (sortLocked buf1).map (·.ip) ~ buf1.map (·.ip) :=
      (sortLocked_perm buf1).map _
    exact ((hperm.nodup_iff).mpr hnd).sublist (hsub.map _)
  · show (List.length (trimLocked n (sortLocked buf1)) : Int) ≤ max n 0
    unfold trimLocked
    split
    · rename_i hlen
      rw [List.length_take]
      omega
    · rename_i hlen
      omega

theorem trimLocked_of_le (n : Int) (l : List TopResult) (h : (l.length : Int) ≤ n) :
    trimLocked n l = l := by
  unfold trimLocked
  rw [if_neg (by omega)]

theorem trimLocked_of_gt (n : Int) (l : List TopResult) (h : (l.length : Int) > n) :
    trimLocked n l = l.take n.toNat := by
  unfold trimLocked
  rw [if_pos h]

theorem inv_consider (t : topN) (r : TopResult) (h : Inv t) : Inv (Consider t r) := by
  obtain ⟨hsort, hnd, hlen⟩ := h
  unfold Consider
  by_cases hn : t.n ≤ 0
  · rw [if_pos hn]
    exact ⟨hsort, hnd, hlen⟩
  · rw [if_neg hn]
    cases hcb : considerBuf t.buf r with
    | some buf' =>
      exact inv_mk t.n hn buf' (by rw [considerBuf_map_ip t.buf r buf' hcb]; exact hnd)
    | none =>
      apply inv_mk t.n hn
      rw [List.map_append]
      have hnotin : r.ip ∉ t.buf.map (·.ip) := by
        intro hmem
        obtain ⟨e, he, heq⟩ := List.mem_map.mp hmem
        exact ((considerBuf_none_iff t.buf r).mp hcb e he) heq
      refine List.Nodup.append hnd (List.nodup_singleton _) ?_
      intro x hx hx2
      rw [List.map_singleton, List.mem_singleton] at hx2
      subst hx2
      exact hnotin hx

theorem inv_runConsiders (n : Int) (rs : List TopResult) : Inv (runConsiders n rs) := by
  suffices h : ∀ t, Inv t → Inv (rs.foldl Consider t) from h _ (inv_newTopN n)
  induction rs with
  | nil => intro t ht; exact ht
  | cons r rs ih => intro t ht; exact ih _ (inv_consider t r ht)

theorem considerBuf_some_cases (l : List TopResult) (r : TopResult) :
    ∀ l', considerBuf l r = some l' → l' = l ∨ r ∈ l' := by
  induction l with
  | nil => intro l' h; cases h
  | cons e es ih =>
    intro l' h
    by_cases hip : e.ip = r.ip
    · rw [considerBuf, if_pos hip] at h
      by_cases hsc : r.scoreMS < e.scoreMS
      · rw [if_pos hsc] at h
        cases h
        exact Or.inr (List.mem_cons_self _ _)
      · rw [if_neg hsc] at h
        cases h
        exact Or.inl rfl
    · rw [considerBuf, if_neg hip] at h
      cases hcb : considerBuf es r with
      | none => rw [hcb] at h; cases h
      | some l'' =>
        rw [hcb] at h
        cases h
        rcases ih l'' hcb with rfl | hr
        · exact Or.inl rfl
        · exact Or.inr (List.mem_cons_of_mem _ hr)

/-- Idempotence of `Consider` on any state satisfying the heap invariant. -/
theorem consider_idem_of_inv (t : topN) (r : TopResult) (h : Inv t) :
    Consider (Consider t r) r = Consider t r := by
  obtain ⟨tn, tbuf⟩ := t
  obtain ⟨hsort, hnd, hlen⟩ := h
  simp only at hsort hnd hlen
  by_cases hn : tn ≤ 0
  · have h1 : Consider ⟨tn, tbuf⟩ r = ⟨tn, tbuf⟩ := by
      unfold Consider
      rw [if_pos hn]
    simp only [h1]
  · have hmax : max tn 0 = tn := by omega
    rw [hmax] at hlen
    have hinv1 : Inv (Consider ⟨tn, tbuf⟩ r) :=
      inv_consider _ r ⟨hsort, hnd, by simpa [hmax] using hlen⟩
    cases hcb : considerBuf tbuf r with
    | some buf' =>
      have hlen' : buf'.length = tbuf.length := by
        have := congrArg List.length (considerBuf_map_ip tbuf r buf' hcb)
        simpa using this
      have hslen : ((sortLocked buf').length : Int) ≤ tn := by
        rw [sortLocked_length, hlen']
        exact hlen
      have e1 : Consider ⟨tn, tbuf⟩ r = ⟨tn, sortLocked buf'⟩ := by
        unfold Consider
        rw [if_neg hn]
        simp only [hcb]
        rw [trimLocked_of_le tn _ hslen]
      rcases considerBuf_some_cases tbuf r buf' hcb with hbe | hrmem
      · -- the entry was not replaced: the state is unchanged
        have e1' : Consider ⟨tn, tbuf⟩ r = ⟨tn, tbuf⟩ := by
          rw [e1, hbe, sortLocked_of_sorted hsort]
        simp only [e1']
      · -- the entry was replaced by `r`: the second call finds `r` and drops
        rw [e1]
        have hinv1' : Inv (⟨tn, sortLocked buf'⟩ : topN) := e1 ▸ hinv1
        have hrs : r ∈ sortLocked buf' := (sortLocked_perm buf').mem_iff.mpr hrmem
        have hcb2 : considerBuf (sortLocked buf') r = some (sortLocked buf') :=
          considerBuf_self _ r hinv1'.2.1 hrs
        unfold Consider
        rw [if_neg hn]
        simp only [hcb2]
        rw [sortLocked_of_sorted (sortLocked_sorted buf'), trimLocked_of_le tn _ hslen]
    | none =>
      set S := sortLocked (tbuf ++ [r]) with hS
      have hrbuf1 : r ∈ tbuf ++ [r] := List.mem_append_right _ (List.mem_singleton_self r)
      have hrs' : r ∈ S := (sortLocked_perm (tbuf ++ [r])).mem_iff.mpr hrbuf1
      have hSsorted : S.Pairwise scoreLE := sortLocked_sorted (tbuf ++ [r])
      have e1 : Consider ⟨tn, tbuf⟩ r = ⟨tn, trimLocked tn S⟩ := by
        unfold Consider
        rw [if_neg hn]
        simp only [hcb]
      have hinv1' : Inv (⟨tn, trimLocked tn S⟩ : topN) := e1 ▸ hinv1
      have hlen1 : S.length = tbuf.length + 1 := by
        rw [hS, sortLocked_length, List.length_append, List.length_singleton]
      by_cases hr1 : r ∈ trimLocked tn S
      · -- `r` survived the trim: the second call finds it and drops the repeat
        rw [e1]
        have hcb2 : considerBuf (trimLocked tn S) r = some (trimLocked tn S) :=
          considerBuf_self _ r hinv1'.2.1 hr1
        unfold Consider
        rw [if_neg hn]
        simp only [hcb2]
        rw [sortLocked_of_sorted hinv1'.1,
          trimLocked_of_le tn _ (by have := hinv1'.2.2; simpa [hmax] using this)]
      · -- `r` was trimmed away: the trimmed buffer is exactly the old sorted
        -- prefix, and appending `r` again reproduces the same sorted list
        have hfired : (S.length : Int) > tn := by
          by_contra hle
          push_neg at hle
          rw [trimLocked_of_le tn _ hle] at hr1
          exact hr1 hrs'
        have htake : trimLocked tn S = S.take tn.toNat := trimLocked_of_gt tn _ hfired
        have hsplit : S.take tn.toNat ++ S.drop tn.toNat = S := List.take_append_drop _ _
        have hdroplen : (S.drop tn.toNat).length = 1 := by
          rw [List.length_drop, hlen1]
          omega
        have hrdrop : r ∈ S.drop tn.toNat := by
          have hr2 : r ∈ S.take tn.toNat ++ S.drop tn.toNat := by
            rw [hsplit]
            exact hrs'
          rcases List.mem_append.mp hr2 with hin | hin
          · exact absurd (htake ▸ hin) hr1
          · exact hin
        have hdrop_eq : S.drop tn.toNat = [r] := by
          obtain ⟨x, hx⟩ := List.length_eq_one.mp hdroplen
          rw [hx] at hrdrop ⊢
          rw [List.mem_singleton] at hrdrop
          rw [hrdrop]
        have hsorted_eq : S.take tn.toNat ++ [r] = S := by
          rw [← hdrop_eq]
          exact hsplit
        have hnomatch : ∀ e ∈ S.take tn.toNat, e.ip ≠ r.ip := by
          intro e he heq
          have hemem : e ∈ S := (List.take_sublist _ _).subset he
          have hebuf : e ∈ tbuf ++ [r] := (sortLocked_perm (tbuf ++ [r])).mem_iff.mp hemem
          rcases List.mem_append.mp hebuf with hin | hin
          · exact ((considerBuf_none_iff tbuf r).mp hcb e hin) heq
          · rw [List.mem_singleton] at hin
            subst hin
            exact hr1 (htake ▸ he)
        rw [e1, htake]
        have hcb2 : considerBuf (S.take tn.toNat) r = none :=
          (considerBuf_none_iff _ r).mpr hnomatch
        unfold Consider
        rw [if_neg hn]
        simp only [hcb2]
        rw [hsorted_eq, sortLocked_of_sorted hSsorted, htake]

theorem trimLocked_eq_take (n : Int) (hn : 0 < n) (l : List TopResult) :
    trimLocked n l = l.take n.toNat := by
  unfold trimLocked
  split
  · rfl
  · rename_i h
    push_neg at h
    symm
    apply List.take_of_length_le
    omega

/-- C3.  `Consider` implements exactly the spec's algorithm (§4.3): on an
existing entry with the same IP, replace iff strictly smaller score, else
drop; otherwise append; then stably sort ascending by `score_ms` and truncate
to `n`.  The equality is stated on every state satisfying the size invariant
(every state reachable from `newTopN` does, cf. the C4 theorem).  And the
spec's scenario S4: considering `(1.2.3.4, 50)`, `(1.2.3.4, 40)`,
`(1.2.3.4, 60)` into a size-3 heap leaves exactly the single entry
`(1.2.3.4, 40)`. -/
theorem C3_consider_matches_spec :
    (∀ (t : topN) (r : TopResult), (t.buf.length : Int) ≤ max t.n 0 →
      Consider t r = considerSpec t r) ∧
    Snapshot (runConsiders 3
        [⟨0x01020304, 50, 0⟩, ⟨0x01020304, 40, 1⟩, ⟨0x01020304, 60, 2⟩])
      = [⟨0x01020304, 40, 1⟩] := by
  constructor
  · intro t r hlen
    obtain ⟨tn, tbuf⟩ := t
    simp only at hlen
    by_cases hn : tn ≤ 0
    · have hbuf : tbuf = [] := by
        apply List.eq_nil_of_length_eq_zero
        omega
      subst hbuf
      unfold Consider considerSpec
      rw [if_pos hn]
      show (⟨tn, []⟩ : topN) = ⟨tn, (sortLocked ([] ++ [r])).take tn.toNat⟩
      have h0 : tn.toNat = 0 := by omega
      rw [h0, List.take_zero]
    · unfold Consider considerSpec
      rw [if_neg hn]
      cases hcb : considerBuf tbuf r with
      | some buf' =>
        simp only [hcb]
        rw [trimLocked_eq_take tn (by omega)]
      | none =>
        simp only [hcb]
        rw [trimLocked_eq_take tn (by omega)]
  · decide

/-- Witness for C3's refinement at a concrete heap state and record. -/
theorem C3_consider_matches_spec_witness :
    Consider ⟨2, [⟨1, 5, 0⟩]⟩ ⟨2, 3, 0⟩ = considerSpec ⟨2, [⟨1, 5, 0⟩]⟩ ⟨2, 3, 0⟩ :=
  C3_consider_matches_spec.1 ⟨2, [⟨1, 5, 0⟩]⟩ ⟨2, 3, 0⟩ (by decide)

theorem consider_n (t : topN) (r : TopResult) : (Consider t r).n = t.n := by
  unfold Consider
  split
  · rfl
  · cases hcb : considerBuf t.buf r <;> simp [hcb]

theorem runConsiders_n (n : Int) (rs : List TopResult) : (runConsiders n rs).n = n := by
  unfold runConsiders
  suffices h : ∀ t : topN, (rs.foldl Consider t).n = t.n from h (newTopN n)
  induction rs with
  | nil => intro t; rfl
  | cons r rs ih =>
    intro t
    rw [List.foldl_cons, ih, consider_n]

/-- C4.  For every capacity `n` and every finite sequence of `Consider` calls
on a topN heap of capacity `n`, `Snapshot()` returns a list sorted ascending
by `score_ms`, containing no two entries with the same IP, of length at most
`n`.  A topN heap of capacity `n` exists exactly for `n ≥ 0`
(`make([]TopResult, 0, n)` panics for a negative capacity, cf. `newTopNMade`),
so the claim's quantification over heaps of capacity `n` is the hypothesis
`0 ≤ n`. -/
theorem C4_snapshot_invariant (n : Int) (rs : List TopResult) (hn : 0 ≤ n) :
    (Snapshot (runConsiders n rs)).Pairwise (fun a b => a.scoreMS ≤ b.scoreMS) ∧
    ((Snapshot (runConsiders n rs)).map (·.ip)).Nodup ∧
    ((Snapshot (runConsiders n rs)).length : Int) ≤ n := by
  obtain ⟨hs, hnd, hlen⟩ := inv_runConsiders n rs
  rw [runConsiders_n n rs] at hlen
  refine ⟨hs, hnd, ?_⟩
  show ((runConsiders n rs).buf.length : Int) ≤ n
  omega

/-- Witness for C4 at concrete inputs: a capacity-2 heap fed three distinct
results keeps its snapshot sorted and at most 2 entries long. -/
theorem C4_snapshot_invariant_witness :
    (Snapshot (runConsiders 2 [⟨1, 9, 0⟩, ⟨2, 7, 0⟩, ⟨3, 8, 0⟩])).Pairwise
      (fun a b => a.scoreMS ≤ b.scoreMS) ∧
    ((Snapshot (runConsiders 2 [⟨1, 9, 0⟩, ⟨2, 7, 0⟩, ⟨3, 8, 0⟩])).length : Int) ≤ 2 :=
  ⟨(C4_snapshot_invariant 2 [⟨1, 9, 0⟩, ⟨2, 7, 0⟩, ⟨3, 8, 0⟩] (by decide)).1,
   (C4_snapshot_invariant 2 [⟨1, 9, 0⟩, ⟨2, 7, 0⟩, ⟨3, 8, 0⟩] (by decide)).2.2⟩

/-- C9.  `Consider` is idempotent over repeats of the same `TopResult`: on
every heap state (any state reachable by a sequence of `Consider` calls),
considering `r` twice leaves the heap exactly as considering it once. -/
theorem C9_consider_idempotent (n : Int) (rs : List TopResult) (r : TopResult) :
    Consider (Consider (runConsiders n rs) r) r = Consider (runConsiders n rs) r :=
  consider_idem_of_inv (runConsiders n rs) r (inv_runConsiders n rs)

/-- C10, counterexample.  The claim says a heap created with capacity `n ≤ 0`
works without error or panic.  For `n < 0` creation itself panics:
`make([]TopResult, 0, n)` with a negative capacity panics at run time
("makeslice: cap out of range"), modelled by `newTopNMade` returning `none`;
only `n = 0` is panic-free among the capacities `n ≤ 0`. -/
theorem C10_nonpositive_capacity_counterexample :
    newTopNMade (-1) = none ∧ newTopNMade 0 = some (newTopN 0) := by
  exact ⟨by decide, by decide⟩

/-- C10, amended.  Among the capacities `n ≤ 0`, only `n = 0` creates a heap
without error or panic (for `n < 0` the `make` call inside `newTopN` panics,
so no such heap ever exists).  On the created `n = 0` heap — and more
generally on any heap state whose capacity field is `≤ 0`, thanks to the
`t.n <= 0` guard — every `Consider` call is a no-op: the heap state is
unchanged and `Snapshot()` always returns the empty list. -/
theorem C10_nonpositive_capacity (n : Int) (hn : n ≤ 0) :
    (n < 0 → newTopNMade n = none) ∧
    (n = 0 → newTopNMade n = some (newTopN n)) ∧
    (∀ (t : topN) (r : TopResult), t.n = n → Consider t r = t) ∧
    (∀ rs : List TopResult, runConsiders n rs = newTopN n) ∧
    (∀ rs : List TopResult, Snapshot (runConsiders n rs) = []) := by
  have hcons : ∀ t : topN, t.n = n → ∀ r : TopResult, Consider t r = t := by
    intro t ht r
    unfold Consider
    rw [if_pos (by omega)]
  have hrun : ∀ rs : List TopResult, runConsiders n rs = newTopN n := by
    intro rs
    unfold runConsiders
    induction rs with
    | nil => rfl
    | cons r rs ih =>
      rw [List.foldl_cons, hcons (newTopN n) rfl r]
      exact ih
  refine ⟨fun hneg => ?_, fun h0 => ?_, fun t r ht => hcons t ht r, hrun, fun rs => by
    show (runConsiders n rs).buf = []
    rw [hrun rs]
    rfl⟩
  · unfold newTopNMade
    rw [if_pos hneg]
  · unfold newTopNMade
    rw [if_neg (by omega)]

/-- Witness for C10 (amended) at the concrete capacities `-1` (creation
panics) and `0` (creation succeeds, `Consider` is a no-op, snapshots are
empty). -/
theorem C10_nonpositive_capacity_witness :
    newTopNMade (-1) = none ∧
    newTopNMade 0 = some (newTopN 0) ∧
    Consider (newTopN 0) ⟨1, 2, 3⟩ = newTopN 0 ∧
    Snapshot (runConsiders 0 [⟨1, 2, 3⟩, ⟨4, 5, 6⟩]) = [] :=
  ⟨(C10_nonpositive_capacity (-1) (by decide)).1 (by decide),
   (C10_nonpositive_capacity 0 (by decide)).2.1 rfl,
   (C10_nonpositive_capacity 0 (by decide)).2.2.1 (newTopN 0) ⟨1, 2, 3⟩ rfl,
   (C10_nonpositive_capacity 0 (by decide)).2.2.2.2 [⟨1, 2, 3⟩, ⟨4, 5, 6⟩]⟩

/-! ### Go strings as `List Char`

Go strings are modelled as `List Char` with structural re-implementations of
the `strings` functions the sources call, so every parser evaluates inside
the kernel.  `isSpace` covers Go `unicode.IsSpace`'s ASCII range (space, \t,
\n, \v, \f, \r); the non-ASCII space characters Go also trims are not
exercised by any claim. -/

def isSpace (c : Char) : Bool :=
  c == ' ' || c == '\t' || c == '\n' || c == '\r' ||
    c == Char.ofNat 11 || c == Char.ofNat 12

/-- Go `strings.TrimSpace`. -/
def trimList (s : List Char) : List Char :=
  ((s.dropWhile isSpace).reverse.dropWhile isSpace).reverse

/-- Go `strings.Split` with a one-character separator. -/
def splitOnChar (sep : Char) : List Char → List (List Char)
  | [] => [[]]
  | c :: cs =>
    let r := splitOnChar sep cs
    if c == sep then [] :: r
    else
      match r with
      | [] => [[c]]
      | h :: t => (c :: h) :: t

/-- Go `strings.Cut` with a one-character separator (also used for
`strings.Index` + slicing): splits at the first occurrence. -/
def cutChar (sep : Char) : List Char → Option (List Char × List Char)
  | [] => none
  | c :: cs =>
    if c == sep then some ([], cs)
    else (cutChar sep cs).map (fun p => (c :: p.1, p.2))

/-! ### `parseTrace` (src/internal/probe/trace.go lines 174-193)

A Go `map[string]string` built by repeated assignment is modelled as an
association list with unique keys: `mapSet` replaces in place or appends, so
"last writer wins" on the value and lookup order is immaterial. -/

def mapSet (m : List (List Char × List Char)) (k v : List Char) :
    List (List Char × List Char) :=
  if m.any (fun e => e.1 == k) then m.map (fun e => if e.1 == k then (k, v) else e)
  else m ++ [(k, v)]

/-- One line of the `parseTrace` loop: trim the line, skip it when empty, cut
at the first `=`, trim key and value, and store when the key is non-empty. -/
def parseTraceStep (m : List (List Char × List Char)) (line : List Char) :
    List (List Char × List Char) :=
  let line := trimList line
  if line == [] then m
  else
    match cutChar '=' line with
    | none => m
    | some (k, v) =>
      let k := trimList k
      let v := trimList v
      if k == [] then m else mapSet m k v

def parseTrace (s : List Char) : List (List Char × List Char) :=
  (splitOnChar '\n' s).foldl parseTraceStep []

/-- The claim's description of the body parser, written from its words: split
into lines, trim, ignore empty and `=`-less lines, store every remaining
`key=value` (no empty-key restriction), last occurrence wins. -/
def parseTraceStepClaimed (m : List (List Char × List Char)) (line : List Char) :
    List (List Char × List Char) :=
  let line := trimList line
  if line == [] then m
  else
    match cutChar '=' line with
    | none => m
    | some (k, v) => mapSet m (trimList k) (trimList v)

def parseTraceClaimed (s : List Char) : List (List Char × List Char) :=
  (splitOnChar '\n' s).foldl parseTraceStepClaimed []

/-- The entries the code keeps: those with a non-empty key. -/
def keyNonempty (e : List Char × List Char) : Bool := !(e.1 == [])

theorem filter_mapSet_empty (m : List (List Char × List Char)) (v : List Char) :
    (mapSet m [] v).filter keyNonempty = m.filter keyNonempty := by
  unfold mapSet
  split
  · rw [List.filter_map]
    have hpred : ∀ e ∈ m,
        keyNonempty (if e.1 == ([] : List Char) then (([] : List Char), v) else e)
          = keyNonempty e := by
      intro e _
      by_cases he : e.1 == ([] : List Char)
      · rw [if_pos he]
        simp only [keyNonempty]
        rw [show (e.1 == ([] : List Char)) = true from he]
        rfl
      · rw [if_neg he]
    simp only [Function.comp_def]
    rw [List.filter_congr hpred]
    conv_rhs => rw [← List.map_id (List.filter keyNonempty m)]
    apply List.map_congr_left
    intro e he
    rw [List.mem_filter] at he
    have hne : ¬ (e.1 == ([] : List Char)) = true := by
      have := he.2
      simp only [keyNonempty] at this
      intro hc
      rw [hc] at this
      cases this
    rw [if_neg hne]
    rfl
  · rw [List.filter_append]
    have : List.filter keyNonempty [(([] : List Char), v)] = [] := rfl
    rw [this, List.append_nil]

theorem filter_mapSet_comm (m : List (List Char × List Char)) (k v : List Char)
    (hk : k ≠ []) :
    mapSet (m.filter keyNonempty) k v = (mapSet m k v).filter keyNonempty := by
  have hkeep : ∀ e : List Char × List Char, e.1 = k → keyNonempty e = true := by
    intro e he
    simp only [keyNonempty]
    rw [show (e.1 == ([] : List Char)) = false from ?_]
    · rfl
    · rw [beq_eq_false_iff_ne]
      rw [he]
      exact hk
  have hany : (m.filter keyNonempty).any (fun e => e.1 == k)
      = m.any (fun e => e.1 == k) := by
    rw [Bool.eq_iff_iff]
    simp only [List.any_eq_true, List.mem_filter]
    constructor
    · rintro ⟨e, ⟨he, _⟩, hek⟩
      exact ⟨e, he, hek⟩
    · rintro ⟨e, he, hek⟩
      exact ⟨e, ⟨he, hkeep e (by rwa [← beq_iff_eq])⟩, hek⟩
  unfold mapSet
  rw [hany]
  by_cases h : m.any (fun e => e.1 == k) = true
  · rw [if_pos h, if_pos h, List.filter_map]
    have hpred : ∀ e ∈ m,
        keyNonempty (if e.1 == k then (k, v) else e) = keyNonempty e := by
      intro e _
      by_cases he : (e.1 == k) = true
      · rw [if_pos he]
        rw [hkeep (k, v) rfl, hkeep e (beq_iff_eq.mp he)]
      · rw [if_neg he]
    simp only [Function.comp_def]
    rw [List.filter_congr hpred]
  · rw [if_neg h, if_neg h, List.filter_append]
    have hkv : keyNonempty (k, v) = true := hkeep (k, v) rfl
    simp [hkv]

theorem parseTraceStep_filter (m : List (List Char × List Char)) (line : List Char) :
    parseTraceStep (m.filter keyNonempty) line
      = (parseTraceStepClaimed m line).filter keyNonempty := by
  unfold parseTraceStep parseTraceStepClaimed
  by_cases hempty : (trimList line == ([] : List Char)) = true
  · rw [if_pos hempty, if_pos hempty]
  · rw [if_neg hempty, if_neg hempty]
    cases hcut : cutChar '=' (trimList line) with
    | none => rfl
    | some kv =>
      obtain ⟨k, v⟩ := kv
      dsimp only
      by_cases hk : (trimList k == ([] : List Char)) = true
      · rw [if_pos hk]
        rw [show trimList k = [] from beq_iff_eq.mp hk]
        exact (filter_mapSet_empty m (trimList v)).symm
      · rw [if_neg hk]
        exact filter_mapSet_comm m (trimList k) (trimList v)
          (by intro hc; exact hk (by rw [hc]; decide))

/-- The code's parser is the claim's parser with empty-key lines dropped. -/
theorem parseTrace_eq_filter_claimed (s : List Char) :
    parseTrace s = (parseTraceClaimed s).filter keyNonempty := by
  unfold parseTrace parseTraceClaimed
  suffices h : ∀ (lines : List (List Char)) (m : List (List Char × List Char)),
      lines.foldl parseTraceStep (m.filter keyNonempty)
        = (lines.foldl parseTraceStepClaimed m).filter keyNonempty by
    have := h (splitOnChar '\n' s) []
    simpa using this
  intro lines
  induction lines with
  | nil => intro m; rfl
  | cons line ls ih =>
    intro m
    rw [List.foldl_cons, List.foldl_cons, parseTraceStep_filter m line, ih]

/-- C7 counterexample.  On the input `"=v"` (an `=` line whose trimmed key is
empty) the code stores nothing, while the claim's described algorithm — which
ignores only empty lines and lines without `=` — stores the pair
`("", "v")`. -/
theorem C7_parseTrace_counterexample :
    parseTrace ("=v".toList) = [] ∧
    parseTraceClaimed ("=v".toList) = [([], ("v".toList))] ∧
    parseTrace ("=v".toList) ≠ parseTraceClaimed ("=v".toList) := by
  refine ⟨by decide, by decide, by decide⟩

/-- C7 (amended).  `parseTrace` splits on newlines, trims each line and each
key and value, ignores empty lines, lines without `=`, and lines whose
trimmed key is empty, keeps inline `#` verbatim, and lets the last occurrence
of a key win: it equals the claim's parser with empty-key entries dropped,
and on `"a=b#c\n a = 1 \nx=y\na=2\nbad\n\n"` yields exactly
`[("a", "2"), ("x", "y")]` (inline `#` kept, later `a` wins, `bad` and blank
lines ignored). -/
theorem C7_parseTrace_amended :
    (∀ s : List Char, parseTrace s = (parseTraceClaimed s).filter keyNonempty) ∧
    parseTrace (("a=b#c\n a = 1 \nx=y\na=2\nbad\n\n").toList)
      = [(("a".toList), ("2".toList)), (("x".toList), ("y".toList))] ∧
    parseTrace (("x=y#z").toList) = [(("x".toList), ("y#z".toList))] := by
  refine ⟨parseTrace_eq_filter_claimed, by decide, by decide⟩

/-! ### `ProbeHTTPTrace` (src/internal/probe/trace.go lines 80-172)

The network is abstracted as the one observation the function branches on:
the request construction can fail (`reqError`), `client.Do` can fail
(`transportError`, with the flag for `errors.Is(err, context.
DeadlineExceeded)`), or a response arrives (`response` with its status code
and the body read, already capped at 64 KiB by the caller's `LimitReader`).
Wall-clock duration fields are not modelled.  The function is total: every
input yields a populated outcome, so probe errors never abort the caller. -/

inductive Wire where
  | reqError (msg : List Char)
  | transportError (isDeadlineExceeded : Bool) (msg : List Char)
  | response (status : Int) (body : List Char)
deriving DecidableEq, Repr

structure ProbeResult where
  ip : Nat
  ok : Bool
  status : Int
  error : List Char
  trace : Option (List (List Char × List Char))
deriving DecidableEq, Repr

def digitChar (n : Nat) : Char := Char.ofNat (48 + n)

def natChars : Nat → Nat → List Char
  | 0, _ => []
  | fuel + 1, n => if n < 10 then [digitChar n] else natChars fuel (n / 10) ++ [digitChar (n % 10)]

/-- Go `fmt.Sprintf("%d", i)`. -/
def intToChars (i : Int) : List Char :=
  if i < 0 then '-' :: natChars i.natAbs i.natAbs else natChars (i.toNat + 1) i.toNat

def ProbeHTTPTrace (ip : Nat) (w : Wire) : ProbeResult :=
  match w with
  | .reqError msg =>
    { ip := ip, ok := false, status := 0, error := msg, trace := none }
  | .transportError dl msg =>
    { ip := ip, ok := false, status := 0,
      error := if dl then ("timeout".toList) else msg, trace := none }
  | .response st body =>
    if 200 ≤ st ∧ st < 300 then
      { ip := ip, ok := true, status := st, error := [], trace := some (parseTrace body) }
    else
      { ip := ip, ok := false, status := st,
        error := ("http_status_".toList) ++ intToChars st, trace := none }

/-- C6.  `ProbeHTTPTrace` always returns a populated outcome (it is total in
the observation, so errors never abort the caller); `ok = true` iff the HTTP
status is in `[200, 300)`; the trace map is populated exactly when `ok`, and
then it is the parsed body; a context-deadline error yields error tag
`"timeout"`; a non-2xx response yields `ok = false` with error tag
`"http_status_<code>"`; any other transport error (and a request-construction
error) surfaces its native message. -/
theorem C6_probe_outcome (ip : Nat) (w : Wire) :
    ((ProbeHTTPTrace ip w).ok = true ↔
      ∃ st body, w = .response st body ∧ 200 ≤ st ∧ st < 300) ∧
    ((ProbeHTTPTrace ip w).trace.isSome = true ↔ (ProbeHTTPTrace ip w).ok = true) ∧
    (∀ st body, w = .response st body → 200 ≤ st → st < 300 →
      (ProbeHTTPTrace ip w).trace = some (parseTrace body) ∧
        (ProbeHTTPTrace ip w).status = st) ∧
    (∀ st body, w = .response st body → ¬(200 ≤ st ∧ st < 300) →
      (ProbeHTTPTrace ip w).ok = false ∧
        (ProbeHTTPTrace ip w).error = ("http_status_".toList) ++ intToChars st ∧
        (ProbeHTTPTrace ip w).status = st) ∧
    (∀ msg, w = .transportError true msg →
      (ProbeHTTPTrace ip w).error = ("timeout".toList) ∧
        (ProbeHTTPTrace ip w).ok = false) ∧
    (∀ msg, w = .transportError false msg →
      (ProbeHTTPTrace ip w).error = msg ∧ (ProbeHTTPTrace ip w).ok = false) ∧
    (∀ msg, w = .reqError msg →
      (ProbeHTTPTrace ip w).error = msg ∧ (ProbeHTTPTrace ip w).ok = false) ∧
    (ProbeHTTPTrace ip w).ip = ip := by
  refine ⟨?_, ?_, ?_, ?_, ?_, ?_, ?_, ?_⟩
  · constructor
    · intro hok
      cases w with
      | reqError msg => cases hok
      | transportError dl msg => cases hok
      | response st body =>
        by_cases h2 : 200 ≤ st ∧ st < 300
        · exact ⟨st, body, rfl, h2⟩
        · rw [show ProbeHTTPTrace ip (.response st body)
            = { ip := ip, ok := false, status := st,
                error := ("http_status_".toList) ++ intToChars st, trace := none } from by
              unfold ProbeHTTPTrace
              dsimp only
              rw [if_neg h2]] at hok
          cases hok
    · rintro ⟨st, body, rfl, h2⟩
      unfold ProbeHTTPTrace
      dsimp only
      rw [if_pos h2]
  · cases w with
    | reqError msg => exact Iff.intro (fun h => by cases h) (fun h => by cases h)
    | transportError dl msg => exact Iff.intro (fun h => by cases h) (fun h => by cases h)
    | response st body =>
      unfold ProbeHTTPTrace
      dsimp only
      by_cases h2 : 200 ≤ st ∧ st < 300
      · rw [if_pos h2]
        exact Iff.intro (fun _ => rfl) (fun _ => rfl)
      · rw [if_neg h2]
        exact Iff.intro (fun h => by cases h) (fun h => by cases h)
  · rintro st body rfl hlo hhi
    unfold ProbeHTTPTrace
    dsimp only
    rw [if_pos ⟨hlo, hhi⟩]
    exact ⟨rfl, rfl⟩
  · rintro st body rfl h2
    unfold ProbeHTTPTrace
    dsimp only
    rw [if_neg h2]
    exact ⟨rfl, rfl, rfl⟩
  · rintro msg rfl
    exact ⟨rfl, rfl⟩
  · rintro msg rfl
    exact ⟨rfl, rfl⟩
  · rintro msg rfl
    exact ⟨rfl, rfl⟩
  · cases w with
    | reqError msg => rfl
    | transportError dl msg => rfl
    | response st body =>
      unfold ProbeHTTPTrace
      dsimp only
      by_cases h2 : 200 ≤ st ∧ st < 300
      · rw [if_pos h2]
      · rw [if_neg h2]

/-- Witness for C6 at concrete observations: a 404 response renders the
`http_status_404` tag, and a deadline error renders `timeout`. -/
theorem C6_probe_outcome_witness :
    (ProbeHTTPTrace 7 (.response 404 [])).error = ("http_status_404".toList) ∧
    (ProbeHTTPTrace 7 (.transportError true ("conn reset".toList))).error
      = ("timeout".toList) := by
  constructor
  · have h := (C6_probe_outcome 7 (.response 404 [])).2.2.2.1 404 [] rfl (by decide)
    rw [h.2.1]
    decide
  · exact ((C6_probe_outcome 7
      (.transportError true ("conn reset".toList))).2.2.2.2.1 _ rfl).1

/-! ### `ReadCIDRs` (src/internal/cidr/cidr.go lines 24-46)

`bufio.Scanner` with the default line splitter yields the input's lines; the
final `\n` produces no extra line, and splitting on `'\n'` instead produces a
final `""`, which `ReadCIDRs` skips as blank, so the two agree; a `\r\n` line
ending is absorbed by the `TrimSpace` that every line undergoes first.

`net/netip.ParsePrefix` is the Go standard library, external to this
repository, and accepts both IPv4 and IPv6 CIDR text.  `ReadCIDRs`' own line
handling never inspects the parsed value beyond masking it, so the address
parser is passed in as an explicit parameter `parse` — the same way the rng
and the network are passed in elsewhere — and the line-handling conjuncts of
C8 hold for every parser, in particular for the real netip one on every
address family it accepts.  For the spec's concrete S6 example (IPv4-only
lines) the parameter is instantiated with `parsePrefixV4`, netip.ParsePrefix
restricted to IPv4 dotted-quad CIDR text: split at the last `/`, a dotted
quad of decimal octets `0..255` without leading zeros, and a decimal bit
count `0..32` — the unmasked prefix. -/

/-- A decimal numeral as netip accepts one: non-empty digits, no leading
zero. -/
def decOk (l : List Char) : Bool :=
  !l.isEmpty && l.all Char.isDigit && (l.length == 1 || l.head? != some '0')

def digitsVal (l : List Char) : Nat := l.foldl (fun a c => a * 10 + (c.toNat - 48)) 0

def parseV4 (s : List Char) : Option Nat :=
  match splitOnChar '.' s with
  | [a, b, c, d] =>
    if decOk a = true ∧ decOk b = true ∧ decOk c = true ∧ decOk d = true ∧
        digitsVal a ≤ 255 ∧ digitsVal b ≤ 255 ∧ digitsVal c ≤ 255 ∧ digitsVal d ≤ 255 then
      some (((digitsVal a * 256 + digitsVal b) * 256 + digitsVal c) * 256 + digitsVal d)
    else none
  | _ => none

/-- Split at the last occurrence of `sep` (Go `strings.LastIndexByte`). -/
def splitLast (sep : Char) (s : List Char) : Option (List Char × List Char) :=
  match cutChar sep s.reverse with
  | none => none
  | some (post, pre) => some (pre.reverse, post.reverse)

def parsePrefixV4 (s : List Char) : Option Pfx :=
  match splitLast '/' s with
  | none => none
  | some (addrStr, bitsStr) =>
    match parseV4 addrStr with
    | some a =>
      if decOk bitsStr = true ∧ digitsVal bitsStr ≤ 32 then
        some ⟨.v4, a, digitsVal bitsStr⟩
      else none
    | none => none

/-- The remainder of a (trimmed) line after stripping a trailing `#` comment
(cidr.go lines 33-35). -/
def lineRemainder (line : List Char) : List Char :=
  match cutChar '#' line with
  | some pr => trimList pr.1
  | none => line

def readCIDRsLines (parse : List Char → Option Pfx) :
    List (List Char) → Except (List Char) (List Pfx)
  | [] => .ok []
  | l :: ls =>
    let line := trimList l
    if line == [] || line.head? == some '#' then readCIDRsLines parse ls
    else
      match parse (lineRemainder line) with
      | none => .error (("parse cidr ".toList) ++ lineRemainder line)
      | some p => (readCIDRsLines parse ls).map (fun out => p.masked :: out)

def ReadCIDRs (parse : List Char → Option Pfx) (s : List Char) :
    Except (List Char) (List Pfx) :=
  readCIDRsLines parse (splitOnChar '\n' s)

/-! ### String helper lemmas for C8 -/

theorem dropWhile_fixed_append (p : Char → Bool) (x y : List Char)
    (hy : y.dropWhile p = y) : (x ++ y).dropWhile p = x.dropWhile p ++ y := by
  rw [List.dropWhile_append]
  split
  · rename_i hemp
    rw [List.isEmpty_iff] at hemp
    rw [hemp, hy, List.nil_append]
  · rfl

theorem dropWhile_head_false (p : Char → Bool) :
    ∀ (l : List Char) (a : Char) (r : List Char), l.dropWhile p = a :: r → p a = false := by
  intro l
  induction l with
  | nil => intro a r h; cases h
  | cons x xs ih =>
    intro a r h
    by_cases hx : p x = true
    · rw [List.dropWhile_cons_of_pos hx] at h
      exact ih a r h
    · rw [List.dropWhile_cons_of_neg hx] at h
      cases h
      cases hpx : p x with
      | true => exact absurd hpx hx
      | false => rfl

theorem cutChar_eq_none (sep : Char) :
    ∀ x : List Char, sep ∉ x → cutChar sep x = none := by
  intro x
  induction x with
  | nil => intro _; rfl
  | cons c cs ih =>
    intro h
    have hc : ¬(c == sep) = true := by
      intro hcc
      exact h (by rw [beq_iff_eq.mp hcc]; exact List.mem_cons_self _ _)
    show (if c == sep then _ else (cutChar sep cs).map _) = none
    rw [if_neg hc, ih (fun hm => h (List.mem_cons_of_mem _ hm))]
    rfl

theorem cutChar_append (sep : Char) :
    ∀ x y : List Char, sep ∉ x → cutChar sep (x ++ sep :: y) = some (x, y) := by
  intro x
  induction x with
  | nil =>
    intro y _
    show (if sep == sep then some ([], y) else _) = _
    rw [if_pos (beq_self_eq_true sep)]
  | cons c cs ih =>
    intro y h
    have hc : ¬(c == sep) = true := by
      intro hcc
      exact h (by rw [beq_iff_eq.mp hcc]; exact List.mem_cons_self _ _)
    show (if c == sep then _ else (cutChar sep (cs ++ sep :: y)).map _) = _
    rw [if_neg hc, ih y (fun hm => h (List.mem_cons_of_mem _ hm))]
    rfl

/-- Right trim: remove trailing space characters. -/
def rtrim (x : List Char) : List Char := (x.reverse.dropWhile isSpace).reverse

theorem trimList_eq_rtrim_dropWhile (s : List Char) :
    trimList s = rtrim (s.dropWhile isSpace) := rfl

theorem rtrim_cons_not_space (d : Char) (t : List Char) (hd : isSpace d = false) :
    rtrim (d :: t) = d :: rtrim t := by
  unfold rtrim
  rw [List.reverse_cons, dropWhile_fixed_append isSpace t.reverse [d]
    (by rw [List.dropWhile_cons_of_neg (by rw [hd]; intro hc; cases hc)])]
  rw [List.reverse_append]
  rfl

theorem rtrim_append_space (x : List Char) : rtrim (x ++ [' ']) = rtrim x := by
  unfold rtrim
  rw [List.reverse_append]
  show ((' ' :: x.reverse).dropWhile isSpace).reverse = _
  rw [List.dropWhile_cons_of_pos (by rfl)]

theorem rtrim_subset (x : List Char) : ∀ a ∈ rtrim x, a ∈ x := by
  intro a ha
  unfold rtrim at ha
  rw [List.mem_reverse] at ha
  have := (List.dropWhile_sublist isSpace (l := x.reverse)).subset ha
  rwa [List.mem_reverse] at this

theorem trimList_subset (s : List Char) : ∀ a ∈ trimList s, a ∈ s := by
  intro a ha
  rw [trimList_eq_rtrim_dropWhile] at ha
  have := rtrim_subset _ a ha
  exact (List.dropWhile_sublist isSpace (l := s)).subset this

theorem rtrim_append_not_space (x y : List Char) (d0 : Char)
    (hd0 : isSpace d0 = false) : rtrim (x ++ d0 :: y) = x ++ d0 :: rtrim y := by
  unfold rtrim
  have h3 : (x ++ d0 :: y).reverse = y.reverse ++ (d0 :: x.reverse) := by
    simp
  rw [h3, dropWhile_fixed_append isSpace y.reverse (d0 :: x.reverse)
    (List.dropWhile_cons_of_neg (by rw [hd0]; intro hc; cases hc))]
  simp

/-- Masking is idempotent. -/
theorem masked_idem (q : Pfx) : q.masked.masked = q.masked := by
  have hpos : 0 < 2 ^ q.hostLen := Nat.pos_pow_of_pos _ (by omega)
  have key : (q.addr >>> q.hostLen <<< q.hostLen) >>> q.hostLen = q.addr >>> q.hostLen := by
    rw [Nat.shiftLeft_eq, Nat.shiftRight_eq_div_pow, Nat.mul_div_cancel _ hpos]
  show Pfx.mk q.family ((q.addr >>> q.hostLen <<< q.hostLen) >>> q.hostLen <<< q.hostLen)
      q.bits = Pfx.mk q.family (q.addr >>> q.hostLen <<< q.hostLen) q.bits
  rw [key]

theorem readCIDRsLines_cons (parse : List Char → Option Pfx) (l : List Char)
    (ls : List (List Char)) :
    readCIDRsLines parse (l :: ls)
      = if trimList l == [] || (trimList l).head? == some '#' then
          readCIDRsLines parse ls
        else
          match parse (lineRemainder (trimList l)) with
          | none => .error (("parse cidr ".toList) ++ lineRemainder (trimList l))
          | some p => (readCIDRsLines parse ls).map (fun out => p.masked :: out) := rfl

/-- C8.  `ReadCIDRs` parses one CIDR per line: the spec's S6 file parses to
exactly `[1.1.0.0/16, 2.2.2.0/24]`; and for EVERY address parser `parse`
(`net/netip.ParsePrefix` is external to this repository and is passed in
explicitly; the line handling is parser-independent): a blank line or a
full-line `#` comment is ignored; a trailing ` #…` comment after a
comment-free line does not change the parse; a non-blank, non-comment
remainder that fails to parse yields an error (making the run fatal) without
looking at later lines; a parsed remainder contributes its masked form in
order; every prefix of a successful parse is masked. -/
theorem C8_readCIDRs_correct :
    ReadCIDRs parsePrefixV4 (("# header\n1.1.0.0/16\n\n2.2.2.0/24 # comment\n").toList)
      = .ok [⟨Family.v4, 0x01010000, 16⟩, ⟨Family.v4, 0x02020200, 24⟩] ∧
    (∀ (parse : List Char → Option Pfx) (l : List Char) (ls : List (List Char)),
      trimList l = [] ∨ (trimList l).head? = some '#' →
      readCIDRsLines parse (l :: ls) = readCIDRsLines parse ls) ∧
    (∀ (parse : List Char → Option Pfx) (l c : List Char) (ls : List (List Char)),
      '#' ∉ l →
      readCIDRsLines parse ((l ++ ' ' :: '#' :: c) :: ls)
        = readCIDRsLines parse (l :: ls)) ∧
    (∀ (parse : List Char → Option Pfx) (l : List Char) (ls : List (List Char)),
      '#' ∉ trimList l → trimList l ≠ [] → parse (trimList l) = none →
      readCIDRsLines parse (l :: ls) = .error (("parse cidr ".toList) ++ trimList l)) ∧
    (∀ (parse : List Char → Option Pfx) (l : List Char) (ls : List (List Char))
      (p : Pfx), '#' ∉ trimList l → trimList l ≠ [] → parse (trimList l) = some p →
      readCIDRsLines parse (l :: ls)
        = (readCIDRsLines parse ls).map (fun out => p.masked :: out)) ∧
    (∀ (parse : List Char → Option Pfx) (s : List Char) (out : List Pfx),
      ReadCIDRs parse s = .ok out → ∀ p ∈ out, p.masked = p) := by
  have hnochash : ∀ l : List Char, '#' ∉ trimList l →
      lineRemainder (trimList l) = trimList l := by
    intro l h
    unfold lineRemainder
    rw [cutChar_eq_none _ _ h]
  have hcond_false : ∀ l : List Char, '#' ∉ trimList l → trimList l ≠ [] →
      ¬((trimList l == []) || ((trimList l).head? == some '#')) = true := by
    intro l hns hne hor
    rcases Bool.or_eq_true_iff.mp hor with h | h
    · exact hne (beq_iff_eq.mp h)
    · have hh : (trimList l).head? = some '#' := beq_iff_eq.mp h
      cases htl : trimList l with
      | nil => rw [htl] at hh; cases hh
      | cons a r =>
        rw [htl] at hh
        have ha : a = '#' := by
          injection hh
        subst ha
        exact hns (by rw [htl]; exact List.mem_cons_self _ _)
  refine ⟨by rfl, ?_, ?_, ?_, ?_, ?_⟩
  · -- blank and full-comment lines are skipped
    intro parse l ls h
    rw [readCIDRsLines_cons]
    rcases h with h | h
    · rw [if_pos (by rw [h]; rfl)]
    · rw [if_pos (by rw [h]; simp)]
  · -- a trailing comment does not change the parse
    intro parse l c ls hnotin
    cases hA : l.dropWhile isSpace with
    | nil =>
      have htl : trimList l = [] := by
        rw [trimList_eq_rtrim_dropWhile, hA]
        rfl
      have h1 : (l ++ ' ' :: '#' :: c).dropWhile isSpace = '#' :: c := by
        rw [List.dropWhile_append, hA]
        simp only [List.isEmpty_nil, if_true]
        rw [List.dropWhile_cons_of_pos (by rfl),
          List.dropWhile_cons_of_neg (by intro hc2; cases hc2)]
      have hlhs : trimList (l ++ ' ' :: '#' :: c) = '#' :: rtrim c := by
        rw [trimList_eq_rtrim_dropWhile, h1,
          rtrim_cons_not_space '#' c (by rfl)]
      rw [readCIDRsLines_cons, readCIDRsLines_cons, hlhs, htl]
      rw [if_pos (by simp), if_pos (by rfl)]
    | cons d t' =>
      have hd : isSpace d = false := dropWhile_head_false isSpace l d t' hA
      have hsubl : ∀ a, a ∈ d :: t' → a ∈ l := by
        intro a ha
        exact (List.dropWhile_sublist isSpace (l := l)).subset (hA ▸ ha)
      have hdh : d ≠ '#' := fun hc => hnotin (hsubl d (List.mem_cons_self _ _) |> (hc ▸ ·))
      have hnotin' : '#' ∉ (d :: t') ++ [' '] := by
        intro hm
        rcases List.mem_append.mp hm with hm | hm
        · exact hnotin (hsubl _ hm)
        · rw [List.mem_singleton] at hm
          cases hm
      have h1 : (l ++ ' ' :: '#' :: c).dropWhile isSpace = (d :: t') ++ ' ' :: '#' :: c := by
        rw [List.dropWhile_append, hA]
        rw [if_neg (by simp)]
      have h2 : rtrim ((d :: t') ++ ' ' :: '#' :: c)
          = ((d :: t') ++ [' ']) ++ '#' :: rtrim c := by
        have hshape : (d :: t') ++ ' ' :: '#' :: c = ((d :: t') ++ [' ']) ++ '#' :: c := by
          simp
        rw [hshape, rtrim_append_not_space _ c '#' (by rfl)]
      have hlhs : trimList (l ++ ' ' :: '#' :: c)
          = ((d :: t') ++ [' ']) ++ '#' :: rtrim c := by
        rw [trimList_eq_rtrim_dropWhile, h1, h2]
      have hrhs_trim : trimList l = rtrim (d :: t') := by
        rw [trimList_eq_rtrim_dropWhile, hA]
      have hrt : rtrim (d :: t') = d :: rtrim t' := rtrim_cons_not_space d t' hd
      have hcut : cutChar '#' (((d :: t') ++ [' ']) ++ '#' :: rtrim c)
          = some ((d :: t') ++ [' '], rtrim c) := cutChar_append '#' _ _ hnotin'
      have hlr_lhs : lineRemainder (trimList (l ++ ' ' :: '#' :: c)) = rtrim (d :: t') := by
        unfold lineRemainder
        rw [hlhs, hcut]
        show trimList ((d :: t') ++ [' ']) = _
        rw [trimList_eq_rtrim_dropWhile]
        have hdw : ((d :: t') ++ [' ']).dropWhile isSpace = (d :: t') ++ [' '] := by
          show (d :: (t' ++ [' '])).dropWhile isSpace = _
          rw [List.dropWhile_cons_of_neg (by rw [hd]; intro hc2; cases hc2)]
          rfl
        rw [hdw, rtrim_append_space]
      have hnotin_trim : '#' ∉ trimList l := by
        rw [hrhs_trim]
        intro hm
        exact hnotin (hsubl _ (rtrim_subset _ _ hm))
      have hlr_rhs : lineRemainder (trimList l) = rtrim (d :: t') := by
        rw [hnochash l hnotin_trim, hrhs_trim]
      have hcond1 : ¬((trimList (l ++ ' ' :: '#' :: c) == [])
          || ((trimList (l ++ ' ' :: '#' :: c)).head? == some '#')) = true := by
        rw [hlhs]
        intro hor
        rcases Bool.or_eq_true_iff.mp hor with h | h
        · have := beq_iff_eq.mp h
          cases this
        · have := beq_iff_eq.mp h
          have hhd : d = '#' := by
            injection this
          exact hdh hhd
      have hcond2 : ¬((trimList l == []) || ((trimList l).head? == some '#')) = true := by
        rw [hrhs_trim, hrt]
        intro hor
        rcases Bool.or_eq_true_iff.mp hor with h | h
        · have := beq_iff_eq.mp h
          cases this
        · have := beq_iff_eq.mp h
          have hhd : d = '#' := by
            injection this
          exact hdh hhd
      rw [readCIDRsLines_cons, readCIDRsLines_cons, if_neg hcond1, if_neg hcond2,
        hlr_lhs, hlr_rhs]
  · -- parse failure of the remainder is fatal
    intro parse l ls hns hne hp
    rw [readCIDRsLines_cons, if_neg (hcond_false l hns hne), hnochash l hns, hp]
  · -- parsed remainder contributes its masked form
    intro parse l ls p hns hne hp
    rw [readCIDRsLines_cons, if_neg (hcond_false l hns hne), hnochash l hns, hp]
  · -- every returned prefix is masked
    intro parse
    have hmaskedlines : ∀ (lines : List (List Char)) (out : List Pfx),
        readCIDRsLines parse lines = .ok out → ∀ p ∈ out, p.masked = p := by
      intro lines
      induction lines with
      | nil =>
        intro out h p hp
        cases h
        cases hp
      | cons l ls ih =>
        intro out h p hp
        rw [readCIDRsLines_cons] at h
        split at h
        · exact ih out h p hp
        · cases hpp : parse (lineRemainder (trimList l)) with
          | none => rw [hpp] at h; cases h
          | some q =>
            rw [hpp] at h
            cases hrec : readCIDRsLines parse ls with
            | error e => rw [hrec] at h; cases h
            | ok out' =>
              rw [hrec] at h
              cases h
              rcases List.mem_cons.mp hp with rfl | hp'
              · exact masked_idem q
              · exact ih out' hrec p hp'
    intro s out h p hp
    exact hmaskedlines (splitOnChar '\n' s) out h p hp

/-- Witness for C8 at concrete lines: a full-line comment is skipped, a
trailing comment does not change the parse, and an unparsable remainder is a
fatal error. -/
theorem C8_readCIDRs_correct_witness :
    readCIDRsLines parsePrefixV4 [(" # only".toList), ("1.1.0.0/16".toList)]
      = readCIDRsLines parsePrefixV4 [("1.1.0.0/16".toList)] ∧
    readCIDRsLines parsePrefixV4 [(("2.2.2.0/24".toList) ++ ' ' :: '#' :: (" x".toList))]
      = readCIDRsLines parsePrefixV4 [("2.2.2.0/24".toList)] ∧
    readCIDRsLines parsePrefixV4 [("bogus".toList)]
      = .error (("parse cidr ".toList) ++ trimList ("bogus".toList)) :=
  ⟨C8_readCIDRs_correct.2.1 parsePrefixV4 (" # only".toList) [("1.1.0.0/16".toList)]
      (Or.inr (by decide)),
   C8_readCIDRs_correct.2.2.1 parsePrefixV4 ("2.2.2.0/24".toList) (" x".toList) []
      (by decide),
   C8_readCIDRs_correct.2.2.2.1 parsePrefixV4 ("bogus".toList) [] (by decide)
      (by decide) (by decide)⟩

end Mcis
